import Mathlib

/-!
# Multiverso: the shared array table and the ZeroMQ transport

A shallow embedding of `next/include/multiverso/table/array_table.h`
(`ArrayWorker<T>`, `ArrayServer<T>`) and `next/include/multiverso/net/zmq_net.h`
(`ZMQNetWrapper::Send`, `ZMQNetWrapper::Recv`).

Conventions of the embedding.

* Memory is a list of bytes (`Fin 256`).  A `Blob` is the byte region it holds.
* `size_t` is 64 bits wide and `int` is 32 bits wide; `size_t` values are
  naturals below `2 ^ 64`, `int` values are integers, and every place where
  the C++ converts or may wrap is written out (`castInt`, `wrapInt`,
  `toSizeT`, `mulSizeT`, `subSizeT`, `addSizeT`).
* `MV_NumServers()` and `MV_Rank()` return a non-negative `int`; they are
  passed as natural-number parameters.
* `sizeof(T)` of the element type is the parameter `sizeofT`.
* A failed `CHECK` aborts the process: `Fault.checkFailed`.  An access outside
  an object, a division by zero or a read of a variable that was never
  assigned is `Fault.undefined`.  A read from a channel that holds no frame is
  `Fault.blocked`.
* Integers in memory are little-endian two's complement.
-/

namespace Multiverso

/-! ## Machine integers -/

/-- One byte of memory. -/
abbrev Byte := Fin 256

/-- The ways a call of the embedded code can fail to return. -/
inductive Fault where
  /-- A `CHECK` / `CHECK_NOTNULL` failed and aborted the process. -/
  | checkFailed
  /-- The C++ has no defined result here (out-of-bounds access, division by
  zero, read of an indeterminate value). -/
  | undefined
  /-- A blocking call waits for a frame that never comes. -/
  | blocked
  deriving DecidableEq, Repr

deriving instance DecidableEq for Except

/-- The modulus of `size_t`. -/
def SIZE_MOD : Nat := 2 ^ 64

/-- The largest `int`. -/
def INT_MAX : Nat := 2147483647

/-- The conversion `static_cast<int>(n)` of a `size_t`: the low 32 bits of `n`
read as a two's complement number (what C++20 prescribes and what the
compilers did before, where the result above `INT_MAX` was theirs to define). -/
def castInt (n : Nat) : Int :=
  if n % 2 ^ 32 < 2 ^ 31 then ((n % 2 ^ 32 : Nat) : Int)
  else ((n % 2 ^ 32 : Nat) : Int) - 2 ^ 32

/-- The result of an `int` operation whose exact value is `z`, reduced to 32
bits two's complement. -/
def wrapInt (z : Int) : Int := castInt (z % 2 ^ 32).toNat

/-- The conversion of an `int` to `size_t` (value modulo `2 ^ 64`). -/
def toSizeT (z : Int) : Nat := (z % 2 ^ 64).toNat

/-- The product of two `size_t`. -/
def mulSizeT (a b : Nat) : Nat := (a * b) % SIZE_MOD

/-- The sum of two `size_t`. -/
def addSizeT (a b : Nat) : Nat := (a + b) % SIZE_MOD

/-- The difference `a - b` of two `size_t` (both below `2 ^ 64`). -/
def subSizeT (a b : Nat) : Nat := (a + SIZE_MOD - b) % SIZE_MOD

/-! ## `ArrayWorker<T>`: construction -/

/-- The fields of `ArrayWorker<T>`.  The borrowed caller buffer `data_` is not
a field here: the operations that use it take the buffer and return it. -/
structure ArrayWorker where
  /-- Field `size_t size_`: the number of elements of the whole table. -/
  size_ : Nat
  /-- Field `int num_server_`. -/
  num_server_ : Nat
  /-- Field `std::vector<size_t> server_offsets_`. -/
  server_offsets_ : List Nat
  deriving DecidableEq, Repr

/-- The loop `for (int i = 1; i < MV_NumServers(); ++i)
server_offsets_.push_back(i * length);` run on the vector `offs`.  The product
is an `int` product and `push_back` converts it to `size_t`. -/
def ArrayWorker.pushOffsets (MV_NumServers : Nat) (length : Int) (offs : List Nat) :
    List Nat :=
  (List.range' 1 (MV_NumServers - 1)).foldl
    (fun (acc : List Nat) (i : Nat) => acc ++ [toSizeT (wrapInt ((i : Int) * length))]) offs

/-- The constructor `ArrayWorker(size_t size)`. -/
def ArrayWorker.new (MV_NumServers : Nat) (size : Nat) : Except Fault ArrayWorker :=
  if ¬ (size > MV_NumServers) then .error .checkFailed
  else if MV_NumServers = 0 then .error .undefined
  else
    let length : Int := (castInt size).tdiv (MV_NumServers : Int)
    let offs := ArrayWorker.pushOffsets MV_NumServers length [0]
    .ok { size_ := size, num_server_ := MV_NumServers, server_offsets_ := offs ++ [size] }

/-- The entry `server_offsets_[i]`; indexing outside the vector is undefined. -/
def ArrayWorker.offsetAt (w : ArrayWorker) (i : Nat) : Except Fault Nat :=
  match w.server_offsets_.get? i with
  | some b => .ok b
  | none => .error .undefined

/-! ## Blobs -/

/-- A `CHECK(c)`: aborts unless `c` holds. -/
def CHECK (c : Prop) [Decidable c] : Except Fault Unit :=
  if c then .ok () else .error .checkFailed

/-- Modelled from the spec: the `Blob` of `multiverso/blob.h`, which is not among
the sources: "a contiguous byte region ... with a byte length and typed
reinterpretation helpers (element count, typed element access)".  The value
is the byte region `data()[0 .. size())`; a `Blob` without memory is not
modelled. -/
structure Blob where
  /-- The bytes of the region. -/
  bytes : List Byte
  deriving DecidableEq, Repr

/-- Modelled from the spec: the byte length `Blob::size()`. -/
def Blob.size (b : Blob) : Nat := b.bytes.length

/-- Modelled from the spec: the typed element count `Blob::size<T>()`, the byte
length divided by `sizeof(T)` (a `size_t` division). -/
def Blob.sizeAs (sizeofT : Nat) (b : Blob) : Nat := b.size / sizeofT

/-- The value of `k` bytes read as a little-endian unsigned number. -/
def decodeLE (bs : List Byte) : Nat :=
  bs.foldr (fun b acc => b.val + 256 * acc) 0

/-- The `k` low bytes of `n`, little-endian. -/
def encodeLE : Nat → Nat → List Byte
  | 0, _ => []
  | k + 1, n => ⟨n % 256, Nat.mod_lt n (by decide)⟩ :: encodeLE k (n / 256)

/-- Modelled from the spec: the typed element access `Blob::As<int>()`, the first
`sizeof(int) = 4` bytes read as an `int`.  Reading a shorter region leaves the
object. -/
def Blob.asInt (b : Blob) : Except Fault Int :=
  if 4 ≤ b.size then .ok (castInt (decodeLE (b.bytes.take 4))) else .error .undefined

/-- A `Blob` of `sizeof(int)` bytes that holds the `int` `z`
(`Blob key(sizeof(int)); key.As<int>() = z;`, or `Blob(&z, sizeof(int))`). -/
def Blob.ofInt (z : Int) : Blob := ⟨encodeLE 4 (z % 2 ^ 32).toNat⟩

/-- The constructor `Blob(p + off, len)` for `p` the start of the region `mem`:
the bytes `[off, off + len)` of `mem`.  A range that leaves `mem` is undefined. -/
def Blob.region (mem : List Byte) (off len : Nat) : Except Fault Blob :=
  if off + len ≤ mem.length then .ok ⟨(mem.drop off).take len⟩ else .error .undefined

/-- The call `memcpy(dst + off, src, n)` with `n = src.length`, for `dst` the
start of the region `mem`.  A write that leaves `mem` is undefined. -/
def memcpy (mem : List Byte) (off : Nat) (src : List Byte) : Except Fault (List Byte) :=
  if off + src.length ≤ mem.length then
    .ok (mem.take off ++ src ++ mem.drop (off + src.length))
  else .error .undefined

/-! ## `ArrayWorker<T>`: `Partition` and `ProcessReplyGet` -/

/-- The map `std::unordered_map<int, std::vector<Blob>>`, as an association list
with at most one entry for each key. -/
abbrev OutMap := List (Nat × List Blob)

/-- The statement `(*out)[i].push_back(b)`: `operator[]` inserts an empty vector
when the key is absent. -/
def OutMap.push : OutMap → Nat → Blob → OutMap
  | [], i, b => [(i, [b])]
  | (k, v) :: rest, i, b =>
    if k = i then (k, v ++ [b]) :: rest else (k, v) :: OutMap.push rest i b

/-- The vector stored under key `i`, if any. -/
def OutMap.find (m : OutMap) (i : Nat) : Option (List Blob) := List.lookup i m

/-- The keys of the map. -/
def OutMap.keys (m : OutMap) : List Nat := m.map Prod.fst

/-- The `Blob blob(kv[1].data() + server_offsets_[i] * sizeof(T),
(server_offsets_[i + 1] - server_offsets_[i]) * sizeof(T))` of `Partition`. -/
def ArrayWorker.slice (sizeofT : Nat) (w : ArrayWorker) (value : Blob) (i : Nat) :
    Except Fault Blob := do
  let lo ← w.offsetAt i
  let hi ← w.offsetAt (i + 1)
  Blob.region value.bytes (mulSizeT lo sizeofT) (mulSizeT (subSizeT hi lo) sizeofT)

/-- The method `int Partition(const std::vector<Blob>& kv, std::unordered_map<int,
std::vector<Blob>>* out)`: the return value and the map afterwards. -/
def ArrayWorker.Partition (sizeofT : Nat) (w : ArrayWorker) (kv : List Blob) (out : OutMap) :
    Except Fault (Nat × OutMap) := do
  CHECK (kv.length = 1 ∨ kv.length = 2)
  match kv with
  | [] => .error .undefined
  | key :: rest =>
    let out1 := (List.range w.num_server_).foldl (fun (m : OutMap) i => m.push i key) out
    match rest with
    | value :: _ =>
      CHECK (value.size = mulSizeT w.size_ sizeofT)
      let out2 ← (List.range w.num_server_).foldlM
        (fun (m : OutMap) i => do
          let blob ← w.slice sizeofT value i
          pure (m.push i blob)) out1
      pure (w.num_server_, out2)
    | [] => pure (w.num_server_, out1)

/-- The method `void ProcessReplyGet(std::vector<Blob>& reply_data)`: the caller
buffer `data_` (the `size_ * sizeof(T)` bytes behind the pointer stored by
`Get`) afterwards. -/
def ArrayWorker.ProcessReplyGet (sizeofT : Nat) (w : ArrayWorker) (data_ : List Byte)
    (reply_data : List Blob) : Except Fault (List Byte) := do
  CHECK (reply_data.length = 2)
  match reply_data with
  | [r0, r1] =>
    let id ← r0.asInt
    if id < 0 then .error .undefined
    else
      let lo ← w.offsetAt id.toNat
      let hi ← w.offsetAt (id.toNat + 1)
      CHECK (r1.sizeAs sizeofT = subSizeT hi lo)
      memcpy data_ (lo * sizeofT) r1.bytes
  | _ => .error .undefined

/-! ## `ArrayServer<T>`: construction -/

/-- The fields of `ArrayServer<T>` (the `Updater` is passed to `ProcessAdd`).
`storage_` is the memory of the `std::vector<T>`: `sizeof(T)` bytes for each
element. -/
structure ArrayServer where
  /-- Field `int server_id_`. -/
  server_id_ : Nat
  /-- The bytes of field `std::vector<T> storage_`. -/
  storage_ : List Byte
  /-- Field `size_t size_`: the number of elements of this shard. -/
  size_ : Nat
  deriving DecidableEq, Repr

/-- The local shard length computed by the constructor `ArrayServer(size_t size)`:
`size_ = size / MV_NumServers();` and, on the last server,
`size_ += size % MV_NumServers();`. -/
def ArrayServer.localSize (MV_Rank MV_NumServers size : Nat) : Nat :=
  let size_ := size / MV_NumServers
  if (MV_Rank : Int) = (MV_NumServers : Int) - 1 then addSizeT size_ (size % MV_NumServers)
  else size_

/-- The constructor `ArrayServer(size_t size)`.  `storage_.resize(size_)`
value-initialises `size_` elements: every byte of the storage is zero. -/
def ArrayServer.new (sizeofT MV_Rank MV_NumServers size : Nat) : Except Fault ArrayServer :=
  if MV_NumServers = 0 then .error .undefined
  else
    let size_ := ArrayServer.localSize MV_Rank MV_NumServers size
    .ok { server_id_ := MV_Rank, storage_ := List.replicate (size_ * sizeofT) 0, size_ := size_ }

/-- The number of elements `storage_.size()` of the storage vector. -/
def ArrayServer.storageSize (sizeofT : Nat) (s : ArrayServer) : Nat :=
  s.storage_.length / sizeofT

/-! ## `ArrayServer<T>`: requests and checkpoints -/

/-- Modelled from the spec: the external `Updater<T>` of
`multiverso/updater/updater.h`, which is not among the sources:
"`Updater.update(count, storage, delta)` (opaque numeric combine policy)".
`Update count storage delta` is the memory of the storage after the call; the
call works in place, so the storage keeps its size. -/
structure Updater where
  /-- The bytes of the storage after `Update(count, storage, delta)`. -/
  Update : Nat → List Byte → List Byte → List Byte
  /-- An update in place keeps the extent of the storage. -/
  length_Update : ∀ n storage delta, (Update n storage delta).length = storage.length

/-- The `CHECK(keys.size<int>() == 1 && keys.As<int>() == -1)` of `ProcessAdd`
and `ProcessGet`; `&&` reads the `int` only when the count is one. -/
def checkWholeTable (keys : Blob) : Except Fault Unit :=
  if keys.sizeAs 4 = 1 then do
    let k ← keys.asInt
    CHECK (k = -1)
  else .error .checkFailed

/-- The method `void ProcessAdd(const std::vector<Blob>& data)`. -/
def ArrayServer.ProcessAdd (sizeofT : Nat) (updater_ : Updater) (s : ArrayServer)
    (data : List Blob) : Except Fault ArrayServer :=
  match data with
  | keys :: values :: _ => do
    checkWholeTable keys
    CHECK (values.size = mulSizeT s.size_ sizeofT)
    pure { s with storage_ := updater_.Update s.size_ s.storage_ values.bytes }
  | _ => .error .undefined

/-- The method `void ProcessGet(const std::vector<Blob>& data, std::vector<Blob>*
result)`: the table and the vector `*result` afterwards.  The body reads the
members and writes none. -/
def ArrayServer.ProcessGet (sizeofT : Nat) (s : ArrayServer) (data : List Blob)
    (result : List Blob) : Except Fault (ArrayServer × List Blob) :=
  match data with
  | keys :: _ => do
    checkWholeTable keys
    let key := Blob.ofInt (s.server_id_ : Int)
    let value ← Blob.region s.storage_ 0 (mulSizeT sizeofT s.size_)
    pure (s, (result ++ [key]) ++ [value])
  | [] => .error .undefined

/-- Modelled from the spec: the checkpoint `Stream` of `multiverso/io`, which is
not among the sources: a sequence of raw bytes; `Write` appends at the end and
`Read` takes from the front. -/
structure Stream where
  /-- The bytes in the stream. -/
  content : List Byte
  deriving DecidableEq, Repr

/-- Modelled from the spec: `Stream::Write(buf, n)` appends the first `n` bytes
of `buf`. -/
def Stream.Write (s : Stream) (buf : List Byte) (n : Nat) : Stream :=
  ⟨s.content ++ buf.take n⟩

/-- Modelled from the spec: `Stream::Read(buf, n)` moves up to `n` bytes from the
front of the stream to the start of the region `buf`; the result is the region
and the stream afterwards. -/
def Stream.Read (s : Stream) (buf : List Byte) (n : Nat) : List Byte × Stream :=
  let got := s.content.take (min n buf.length)
  (got ++ buf.drop got.length, ⟨s.content.drop got.length⟩)

/-- The method `void Store(Stream* s)`: the table and the stream afterwards.  The
body reads `storage_` and writes no member. -/
def ArrayServer.Store (sizeofT : Nat) (t : ArrayServer) (s : Stream) : ArrayServer × Stream :=
  (t, s.Write t.storage_ (mulSizeT (t.storageSize sizeofT) sizeofT))

/-- The method `void Load(Stream* s)`: the table and the stream afterwards. -/
def ArrayServer.Load (sizeofT : Nat) (t : ArrayServer) (s : Stream) : ArrayServer × Stream :=
  let r := s.Read t.storage_ (mulSizeT (t.storageSize sizeofT) sizeofT)
  ({ t with storage_ := r.1 }, r.2)

/-! ## The ZeroMQ transport -/

/-- One frame (message part) on a ZeroMQ channel, with its `ZMQ_SNDMORE` mark. -/
structure Frame where
  /-- The bytes of the frame. -/
  payload : List Byte
  /-- Whether the frame is marked "more parts follow". -/
  more : Bool
  deriving DecidableEq, Repr

/-- One end of a ZeroMQ channel: the frames written to it and not yet read,
oldest first, and the `ZMQ_RCVMORE` state left by the last read. -/
structure Socket where
  /-- The frames in the channel. -/
  frames : List Frame
  /-- Socket option `ZMQ_RCVMORE`: the mark of the frame read last. -/
  rcvmore : Bool
  deriving DecidableEq, Repr

/-- The library call `zmq_send(socket, buf, len, flags)`: one frame with the
first `len` bytes of `buf` is written; the result is the number of bytes, an
`int` (at most `INT_MAX`).  A null socket gives `-1`.  A `len` that leaves
`buf` is undefined. -/
def zmq_send (socket : Option Socket) (buf : List Byte) (len : Nat) (sndmore : Bool) :
    Except Fault (Option Socket × Int) :=
  match socket with
  | none => .ok (none, -1)
  | some s =>
    if len ≤ buf.length then
      .ok (some { s with frames := s.frames ++ [⟨buf.take len, sndmore⟩] },
        ((min len INT_MAX : Nat) : Int))
    else .error .undefined

/-- The library call `zmq_recv(socket, buf, len, 0)`: the oldest frame is taken,
its first `len` bytes are stored at the start of `buf`, and the result is the
size of the frame, an `int` (at most `INT_MAX`).  Without a frame the call
blocks.  A `len` that leaves `buf` is undefined.  The result is the socket,
the region `buf` afterwards and the returned `int`. -/
def zmq_recv (s : Socket) (buf : List Byte) (len : Nat) :
    Except Fault (Socket × List Byte × Int) :=
  match s.frames with
  | [] => .error .blocked
  | f :: rest =>
    if len ≤ buf.length then
      let got := f.payload.take len
      .ok ({ frames := rest, rcvmore := f.more }, got ++ buf.drop got.length,
        ((min f.payload.length INT_MAX : Nat) : Int))
    else .error .undefined

/-- Modelled from the spec: the `Message` of `multiverso/message.h`, which is not
among the sources: "a fixed-size header ... plus an ordered sequence of Blobs".
`header` is the `Message::kHeaderSize` bytes behind `header()`. -/
structure Message where
  /-- The bytes behind `header()`. -/
  header : List Byte
  /-- The vector `data()`. -/
  data : List Blob
  deriving DecidableEq, Repr

/-- Modelled from the spec: `Message::Push(blob)` appends a Blob. -/
def Message.Push (m : Message) (b : Blob) : Message := { m with data := m.data ++ [b] }

/-- The fields of `ZMQNetWrapper`. -/
structure ZMQNetWrapper where
  /-- Field `void* responder_`: the inbound endpoint. -/
  responder_ : Socket
  /-- Field `std::vector<void*> requester_`: the outbound endpoints; `none` is
  the null pointer. -/
  requester_ : List (Option Socket)
  /-- Field `int rank_`. -/
  rank_ : Int
  /-- Field `int size_`. -/
  size_ : Int
  deriving DecidableEq, Repr

/-- The loop `for (size_t i = 0; i < msg->data().size(); ++i)` of `Send`, from
index `i` on: `n` is `msg->data().size()`, the list holds the Blobs from index
`i`, `size` is the running total. -/
def ZMQNetWrapper.sendBlobs (n : Nat) :
    Nat → List Blob → Option Socket → Nat → Except Fault (Option Socket × Nat)
  | _, [], socket, size => .ok (socket, size)
  | i, blob :: rest, socket, size => do
    let blob_size := blob.size
    let (socket, send_size) ← zmq_send socket (encodeLE 8 blob_size) 8 true
    CHECK (toSizeT send_size = 8)
    let (socket, send_size) ← zmq_send socket blob.bytes (toSizeT (castInt blob.size))
      (if i = subSizeT n 1 then false else true)
    CHECK (toSizeT send_size = blob_size)
    ZMQNetWrapper.sendBlobs n (i + 1) rest socket (addSizeT size (addSizeT blob_size 8))

/-- The body of `size_t Send(const MessagePtr& msg)` on the endpoint
`socket = requester_[dst]`: the endpoint afterwards and the returned total.
`kHeaderSize` is the constant `Message::kHeaderSize` (an `int`). -/
def ZMQNetWrapper.sendOn (kHeaderSize : Nat) (socket : Option Socket) (msg : Message) :
    Except Fault (Option Socket × Nat) := do
  let size := 0
  let (socket, send_size) ← zmq_send socket msg.header kHeaderSize true
  CHECK ((kHeaderSize : Int) = send_size)
  let size := addSizeT size (toSizeT send_size)
  ZMQNetWrapper.sendBlobs msg.data.length 0 msg.data socket size

/-- The method `size_t Send(const MessagePtr& msg)`; `dst` is the value of
`msg->dst()`.  An index outside `requester_` is undefined. -/
def ZMQNetWrapper.Send (kHeaderSize : Nat) (dst : Nat) (net : ZMQNetWrapper) (msg : Message) :
    Except Fault (ZMQNetWrapper × Nat) :=
  match net.requester_.get? dst with
  | none => .error .undefined
  | some socket => do
    let (socket, size) ← ZMQNetWrapper.sendOn kHeaderSize socket msg
    pure ({ net with requester_ := net.requester_.set dst socket }, size)

/-- The value of a local variable that is read: a variable that was declared
without an initialiser and never assigned (`none`) holds an indeterminate
value, and reading it is undefined. -/
def readLocal {α : Type} : Option α → Except Fault α
  | none => .error .undefined
  | some v => .ok v

/-- The library call `zmq_getsockopt(socket, ZMQ_RCVMORE, &more, &more_size)`
on the variables `more` and `more_size` of the caller (`none`: declared, never
assigned).  The library reads `more_size`; when it is below `sizeof(int)` the
call fails and writes nothing, else it stores the option in `more` and
`sizeof(int)` in `more_size`.  The caller ignores the returned `int`, so the
result is the two variables afterwards. -/
def zmq_getsockopt (s : Socket) (more : Option Int) (more_size : Option Nat) :
    Except Fault (Option Int × Option Nat) := do
  let len ← readLocal more_size
  if len < 4 then pure (more, some len)
  else pure (some (if s.rcvmore then 1 else 0), some 4)

/-- The loop `while (true)` of `Recv`; each round reads a length frame and a
payload frame.  `fuel` bounds the number of rounds (a round that goes on has
taken two frames from the channel, so the number of frames plus one is
enough).  `more` and `more_size` are the local variables of that name.  The
result is the endpoint, the message and the running total. -/
def ZMQNetWrapper.recvLoop :
    Nat → Socket → Message → Nat → Option Int → Option Nat →
      Except Fault (Socket × Message × Nat)
  | 0, _, _, _, _, _ => .error .blocked
  | fuel + 1, responder_, msg, size, more, more_size => do
    let (more, more_size) ← zmq_getsockopt responder_ more more_size
    let m ← readLocal more
    CHECK (m ≠ 0)
    let (responder_, lenBytes, recv_size) ← zmq_recv responder_ (List.replicate 8 0) 8
    let size := addSizeT size (toSizeT recv_size)
    CHECK (toSizeT recv_size = 8)
    let blob_size := decodeLE lenBytes
    let blob : Blob := ⟨List.replicate blob_size 0⟩
    let (responder_, blobBytes, recv_size) ← zmq_recv responder_ blob.bytes blob.size
    let size := addSizeT size (toSizeT recv_size)
    CHECK (toSizeT recv_size = blob_size)
    let msg := msg.Push ⟨blobBytes⟩
    let (more, more_size) ← zmq_getsockopt responder_ more more_size
    let m ← readLocal more
    if m = 0 then pure (responder_, msg, size)
    else ZMQNetWrapper.recvLoop fuel responder_ msg size more more_size

/-- The method `size_t Recv(MessagePtr* msg_ptr)` for a non-null `msg_ptr`: the
wrapper, the message `**msg_ptr` and the returned total afterwards.  The
locals are declared as `int recv_size, more; size_t blob_size, more_size;`,
without initialisers, and nothing is assigned to `more` or `more_size` before
the loop. -/
def ZMQNetWrapper.Recv (kHeaderSize : Nat) (net : ZMQNetWrapper) (msg : Message) :
    Except Fault (ZMQNetWrapper × Message × Nat) := do
  let size := 0
  let more : Option Int := none
  let more_size : Option Nat := none
  let (responder_, header, recv_size) ← zmq_recv net.responder_ msg.header kHeaderSize
  let msg := { msg with header := header }
  CHECK ((kHeaderSize : Int) = recv_size)
  let size := addSizeT size (toSizeT recv_size)
  let (responder_, msg, size) ←
    ZMQNetWrapper.recvLoop (responder_.frames.length + 1) responder_ msg size more more_size
  pure ({ net with responder_ := responder_ }, msg, size)

/-! ## Whole-array requests, end to end -/

/-- Modelled from the spec: the generic dispatch layer behind
`WorkerTable::Add(key, val)` (`multiverso/table_interface.h`, not among the
sources): the request is partitioned and the sub-request of every shard in the
map is handled by `ProcessAdd` of the server of that rank.  The result is
the servers afterwards. -/
def WorkerTable.Add (sizeofT : Nat) (updater_ : Updater) (w : ArrayWorker)
    (servers : List ArrayServer) (key val : Blob) : Except Fault (List ArrayServer) := do
  let (_, out) ← w.Partition sizeofT [key, val] []
  out.foldlM
    (fun (svs : List ArrayServer) (req : Nat × List Blob) =>
      match svs.get? req.1 with
      | none => .error .undefined
      | some s => do
        let s ← s.ProcessAdd sizeofT updater_ req.2
        pure (svs.set req.1 s))
    servers

/-- Modelled from the spec: the generic dispatch layer behind
`WorkerTable::Get(key)` (`multiverso/table_interface.h`, not among the
sources): the request is partitioned, the sub-request of every shard in the map
is answered by `ProcessGet` of the server of that rank, and every reply is
merged by `ProcessReplyGet`.  The result is the caller buffer afterwards. -/
def WorkerTable.Get (sizeofT : Nat) (w : ArrayWorker) (servers : List ArrayServer)
    (data_ : List Byte) (key : Blob) : Except Fault (List Byte) := do
  let (_, out) ← w.Partition sizeofT [key] []
  out.foldlM
    (fun (buf : List Byte) (req : Nat × List Blob) =>
      match servers.get? req.1 with
      | none => .error .undefined
      | some s => do
        let reply ← s.ProcessGet sizeofT req.2 []
        w.ProcessReplyGet sizeofT buf reply.2)
    data_

/-- The method `void Add(T* data, size_t size)`; `data` is the memory of the
`size` elements behind the pointer.  The result is the servers afterwards. -/
def ArrayWorker.Add (sizeofT : Nat) (updater_ : Updater) (w : ArrayWorker)
    (servers : List ArrayServer) (data : List Byte) (size : Nat) :
    Except Fault (List ArrayServer) := do
  CHECK (size = w.size_)
  let all_key : Int := -1
  let key := Blob.ofInt all_key
  let val ← Blob.region data 0 (mulSizeT sizeofT size)
  WorkerTable.Add sizeofT updater_ w servers key val

/-- The method `void Get(T* data, size_t size)`; `data` is the memory of the
`size` elements behind the pointer.  The result is that memory afterwards. -/
def ArrayWorker.Get (sizeofT : Nat) (w : ArrayWorker) (servers : List ArrayServer)
    (data : List Byte) (size : Nat) : Except Fault (List Byte) := do
  CHECK (size = w.size_)
  let all_key : Int := -1
  let whole_table := Blob.ofInt all_key
  WorkerTable.Get sizeofT w servers data whole_table

/-- Modelled from the spec: a "plain-accumulation Updater" adds the delta to the
storage element by element.  `add` is the sum of two elements on their
`sizeofT`-byte representations; `accumulate` does it for the first `count`
elements. -/
def accumulate (sizeofT : Nat) (add : List Byte → List Byte → List Byte) :
    Nat → List Byte → List Byte → List Byte
  | 0, storage, _ => storage
  | count + 1, storage, delta =>
    add (storage.take sizeofT) (delta.take sizeofT) ++
      accumulate sizeofT add count (storage.drop sizeofT) (delta.drop sizeofT)

/-- The merge of a partitioned value: `ProcessReplyGet` is called once for every
shard `i` of `order`, in that order, with the reply `[i, slice i]` whose value
Blob is the slice that `Partition` put in the map `out` for shard `i`. -/
def ArrayWorker.mergeSlices (sizeofT : Nat) (w : ArrayWorker) (out : OutMap)
    (order : List Nat) (data_ : List Byte) : Except Fault (List Byte) :=
  order.foldlM
    (fun (buf : List Byte) i =>
      match out.find i with
      | some [_, v] => w.ProcessReplyGet sizeofT buf [Blob.ofInt (i : Int), v]
      | _ => .error .undefined)
    data_

/-- The frames of the Blobs of a message in the words of the specification: for
each Blob, in order, a length frame (the byte length in 8 bytes) and a payload
frame; every frame is marked "more" but the very last. -/
def blobFrames : List Blob → List Frame
  | [] => []
  | [b] => [⟨encodeLE 8 b.size, true⟩, ⟨b.bytes, false⟩]
  | b :: b' :: rest => ⟨encodeLE 8 b.size, true⟩ :: ⟨b.bytes, true⟩ :: blobFrames (b' :: rest)

/-! ## The boundaries in the words of the specification -/

/-- The boundary list `B = [0, L, 2L, ..., (S-1)L, N]` with `L = floor(N / S)`. -/
def exactOffsets (S N : Nat) : List Nat :=
  (List.range S).map (fun i => i * (N / S)) ++ [N]

/-- The byte range `[lo, hi)` of a region of memory. -/
def byteRange (mem : List Byte) (lo hi : Nat) : List Byte := (mem.drop lo).take (hi - lo)

/-! ## Well-formed tables -/

/-- The boundary `server_offsets_[i]` (`0` outside the vector). -/
def ArrayWorker.boundary (w : ArrayWorker) (i : Nat) : Nat := w.server_offsets_.getD i 0

/-- The length `server_offsets_[i + 1] - server_offsets_[i]` of segment `i`, a
`size_t` difference. -/
def ArrayWorker.segLen (w : ArrayWorker) (i : Nat) : Nat :=
  subSizeT (w.boundary (i + 1)) (w.boundary i)

/-- The representation invariant of an `ArrayWorker<T>`: `num_server_ + 1`
boundaries that start at `0`, do not decrease and end at `size_`, for a
table whose `size_ * sizeof(T)` bytes fit the address space. -/
structure ArrayWorker.WF (sizeofT : Nat) (w : ArrayWorker) : Prop where
  /-- There are `num_server_ + 1` boundaries. -/
  length_eq : w.server_offsets_.length = w.num_server_ + 1
  /-- The first boundary is `0`. -/
  first : w.boundary 0 = 0
  /-- The last boundary is `size_`. -/
  last : w.boundary w.num_server_ = w.size_
  /-- The boundaries do not decrease. -/
  mono : ∀ i, i < w.num_server_ → w.boundary i ≤ w.boundary (i + 1)
  /-- The field `size_` is a `size_t`. -/
  size_lt : w.size_ < SIZE_MOD
  /-- The `size_ * sizeof(T)` bytes of the table fit the address space. -/
  fits : w.size_ * sizeofT < SIZE_MOD

/-- The representation invariant of the servers of one table of `N` elements on
`S` servers, which the constructor sets up and `ProcessAdd` and `Load` keep:
the server at position `i` has rank `i`, the local length the constructor
computes for that rank, and a storage of that many elements. -/
def ServersWF (sizeofT S N : Nat) (servers : List ArrayServer) : Prop :=
  servers.length = S ∧
  ∀ i, i < S →
    (servers.get? i).map (fun s => (s.server_id_, s.size_, s.storage_.length)) =
      some (i, ArrayServer.localSize i S N, ArrayServer.localSize i S N * sizeofT)

/-- The bytes of the storage of the server at position `i` (none outside the
list). -/
def storageOf (servers : List ArrayServer) (i : Nat) : List Byte :=
  match servers.get? i with
  | some s => s.storage_
  | none => []

/-- The element with index `j` of a region of elements of `sizeofT` bytes. -/
def element (sizeofT : Nat) (mem : List Byte) (j : Nat) : List Byte :=
  byteRange mem (j * sizeofT) ((j + 1) * sizeofT)

/-- Modelled from the spec: the "plain-accumulation Updater", whose `Update`
adds the delta to the storage element by element; `add` is the sum of two
elements on their representations and keeps their size. -/
def plainUpdater (sizeofT : Nat) (add : List Byte → List Byte → List Byte)
    (hadd : ∀ x y, (add x y).length = x.length) : Updater where
  Update := accumulate sizeofT add
  length_Update := by
    intro n
    induction n with
    | zero => intro storage delta; rfl
    | succ n ih =>
      intro storage delta
      simp only [accumulate, List.length_append, hadd, ih, List.length_take, List.length_drop]
      omega

/-- The sum of two unsigned (or two's complement) integers of the same size on
their little-endian representations. -/
def addLE (x y : List Byte) : List Byte := encodeLE x.length (decodeLE x + decodeLE y)

/-! ## The whole-table key -/

/-- The key Blob of a whole-table request: it holds exactly one `int`
(`size<int>() == 1`) and that `int` is `-1`. -/
def wholeTableKey (keys : Blob) : Prop :=
  keys.sizeAs 4 = 1 ∧ keys.asInt = .ok (-1)

instance (keys : Blob) : Decidable (wholeTableKey keys) := by
  unfold wholeTableKey
  exact inferInstance

/-! ## Initialisation of the transport -/

/-- The outcomes of the ZeroMQ calls of `Init`, which belong to the library and
the network: what `zmq_bind` returns for the inbound endpoint, what
`zmq_socket(context_, ZMQ_REQ)` returns for the peer in slot `i` (the new
endpoint, or `none` for a null pointer), and what `zmq_connect` returns for an
address. -/
structure ZmqCalls where
  /-- The value `zmq_bind(responder_, "tcp://*:port")` returns. -/
  bind_rc : Int
  /-- The endpoint `zmq_socket(context_, ZMQ_REQ)` returns for slot `i`. -/
  new_socket : Nat → Option Socket
  /-- The value `zmq_connect` returns for an address on a non-null endpoint. -/
  connect_rc : String → Int

/-- The library call `zmq_connect(socket, address)`: `-1` on a null pointer. -/
def zmq_connect (calls : ZmqCalls) (socket : Option Socket) (address : String) : Int :=
  match socket with
  | none => -1
  | some _ => calls.connect_rc address

/-- The loop `for (auto ip : machine_lists)` of `Init` on the peers that are
left: the vector `requester_` and the field `rank_` afterwards. -/
def ZMQNetWrapper.initLoop (calls : ZmqCalls) (local_ip : List String) (port : Int) :
    List String → List (Option Socket) → Int → Except Fault (List (Option Socket) × Int)
  | [], requester_, rank_ => .ok (requester_, rank_)
  | ip :: rest, requester_, rank_ =>
    if ip ∈ local_ip then
      ZMQNetWrapper.initLoop calls local_ip port rest (requester_ ++ [none])
        (castInt requester_.length)
    else do
      let requester := calls.new_socket requester_.length
      let rc := zmq_connect calls requester ("tcp://" ++ ip ++ ":" ++ toString port)
      CHECK (rc = 0)
      ZMQNetWrapper.initLoop calls local_ip port rest (requester_ ++ [requester]) rank_

/-- The method `void Init(int* argc, char** argv)`.  `machine_lists` is what
`ParseMachineFile(argv[1], ...)` reads, `port` is `atoi(argv[2])`, `local_ip` is
the set that `net::GetLocalIPAddress` (not among the sources) fills. -/
def ZMQNetWrapper.Init (calls : ZmqCalls) (local_ip : List String) (argc : Int)
    (machine_lists : List String) (port : Int) (net : ZMQNetWrapper) :
    Except Fault ZMQNetWrapper := do
  CHECK (argc > 2)
  let size_ := castInt machine_lists.length
  let responder_ : Socket := ⟨[], false⟩
  CHECK (calls.bind_rc = 0)
  let (requester_, rank_) ←
    ZMQNetWrapper.initLoop calls local_ip port machine_lists net.requester_ net.rank_
  pure { responder_ := responder_, requester_ := requester_, rank_ := rank_, size_ := size_ }

/-- The accessor `int rank() const`. -/
def ZMQNetWrapper.rank (net : ZMQNetWrapper) : Int := net.rank_

/-- The accessor `int size() const`. -/
def ZMQNetWrapper.size (net : ZMQNetWrapper) : Int := net.size_

/-! ## Facts about the machine integers -/

/-- A step that returns passes its result on. -/
theorem bind_ok {α β : Type} (a : α) (f : α → Except Fault β) :
    (Except.ok a : Except Fault α).bind f = f a := rfl

/-- A step that fails ends the call. -/
theorem bind_error {α β : Type} (e : Fault) (f : α → Except Fault β) :
    (Except.error e : Except Fault α).bind f = .error e := rfl

/-- A call that returns has had every step return. -/
theorem bind_eq_ok {α β : Type} {x : Except Fault α} {f : α → Except Fault β} {r : β}
    (h : x.bind f = .ok r) : ∃ a, x = .ok a ∧ f a = .ok r := by
  cases x with
  | error e => exact absurd h (by simp [Except.bind])
  | ok a => exact ⟨a, rfl, h⟩

/-- A `CHECK` that passes has a true condition. -/
theorem CHECK_eq_ok {c : Prop} [Decidable c] {u : Unit} (h : CHECK c = .ok u) : c := by
  unfold CHECK at h
  by_cases hc : c
  · exact hc
  · rw [if_neg hc] at h
    exact absurd h (by simp)

/-- Inside the `int` range the narrowing conversion is exact. -/
theorem castInt_of_le {n : Nat} (h : n ≤ INT_MAX) : castInt n = (n : Int) := by
  unfold INT_MAX at h
  unfold castInt
  have h1 : n % 2 ^ 32 = n := Nat.mod_eq_of_lt (by omega)
  rw [h1, if_pos (by omega)]

/-- An `int` result inside the range is exact. -/
theorem wrapInt_natCast {n : Nat} (h : n ≤ INT_MAX) : wrapInt (n : Int) = (n : Int) := by
  unfold wrapInt
  have h0 : n ≤ 2147483647 := h
  have h1 : ((n : Int) % 2 ^ 32).toNat = n := by omega
  rw [h1, castInt_of_le h]

/-- A non-negative `int` converts to the same `size_t`. -/
theorem toSizeT_natCast {n : Nat} (h : n < SIZE_MOD) : toSizeT (n : Int) = n := by
  unfold SIZE_MOD at h
  unfold toSizeT
  omega

/-- A `size_t` difference that does not wrap. -/
theorem subSizeT_of_le {a b : Nat} (hab : b ≤ a) (ha : a < SIZE_MOD) :
    subSizeT a b = a - b := by
  unfold subSizeT
  unfold SIZE_MOD at *
  omega

/-- A `size_t` product that does not wrap. -/
theorem mulSizeT_of_lt {a b : Nat} (h : a * b < SIZE_MOD) : mulSizeT a b = a * b :=
  Nat.mod_eq_of_lt h

/-- A `size_t` sum that does not wrap. -/
theorem addSizeT_of_lt {a b : Nat} (h : a + b < SIZE_MOD) : addSizeT a b = a + b :=
  Nat.mod_eq_of_lt h

/-! ## The boundaries built by the `ArrayWorker` constructor -/

/-- The loop of the constructor appends one boundary for each `i` in `1 .. S-1`. -/
theorem ArrayWorker.pushOffsets_eq (S : Nat) (length : Int) (offs : List Nat) :
    ArrayWorker.pushOffsets S length offs =
      offs ++ (List.range' 1 (S - 1)).map
        (fun (i : Nat) => toSizeT (wrapInt ((i : Int) * length))) := by
  unfold ArrayWorker.pushOffsets
  generalize List.range' 1 (S - 1) = l
  induction l generalizing offs with
  | nil => simp
  | cons a l ih => simp [List.foldl_cons, ih]

/-- The multiples `i * floor(N / S)` for `i < S` stay below `N`. -/
theorem mul_div_le_of_lt {i S N : Nat} (hi : i < S) : i * (N / S) ≤ N := by
  calc i * (N / S) ≤ S * (N / S) := Nat.mul_le_mul_right _ (Nat.le_of_lt hi)
    _ ≤ N := Nat.mul_div_le N S

/-- Inside the `int` range the constructor stores the exact boundaries. -/
theorem ArrayWorker.new_eq_exact {S N : Nat} (hS : 1 ≤ S) (hSN : S < N) (hN : N ≤ INT_MAX) :
    ArrayWorker.new S N =
      .ok { size_ := N, num_server_ := S, server_offsets_ := exactOffsets S N } := by
  have hN0 : N ≤ 2147483647 := hN
  unfold ArrayWorker.new
  rw [if_neg (by omega), if_neg (by omega)]
  simp only [ArrayWorker.pushOffsets_eq, castInt_of_le hN]
  have hlen : (N : Int).tdiv (S : Int) = ((N / S : Nat) : Int) := (Int.ofNat_tdiv N S).symm
  rw [hlen]
  have hmap : (List.range' 1 (S - 1)).map
        (fun (i : Nat) => toSizeT (wrapInt ((i : Int) * ((N / S : Nat) : Int)))) =
      (List.range' 1 (S - 1)).map (fun i => i * (N / S)) := by
    apply List.map_congr_left
    intro i hi
    rw [List.mem_range'_1] at hi
    have hle : i * (N / S) ≤ N := mul_div_le_of_lt (by omega)
    have hc : ((i : Int) * ((N / S : Nat) : Int)) = ((i * (N / S) : Nat) : Int) := by push_cast; rfl
    rw [hc, wrapInt_natCast (by unfold INT_MAX; omega),
      toSizeT_natCast (by unfold SIZE_MOD; omega)]
  rw [hmap]
  have hr : List.range S = 0 :: List.range' 1 (S - 1) := by
    rw [List.range_eq_range']
    obtain ⟨k, rfl⟩ : ∃ k, S = k + 1 := ⟨S - 1, by omega⟩
    simp [List.range'_succ]
  simp [exactOffsets, hr]

/-- The boundary list has `S + 1` entries. -/
theorem exactOffsets_length (S N : Nat) : (exactOffsets S N).length = S + 1 := by
  simp [exactOffsets]

/-- The boundary at `i < S` is `i * floor(N / S)`. -/
theorem exactOffsets_getD_lt {S N i : Nat} (hi : i < S) :
    (exactOffsets S N).getD i 0 = i * (N / S) := by
  unfold exactOffsets
  rw [List.getD_eq_getElem?_getD, List.getElem?_append_left (by simpa using hi)]
  simp [List.getElem?_map, List.getElem?_range hi]

/-- The last boundary is `N`. -/
theorem exactOffsets_getD_last (S N : Nat) : (exactOffsets S N).getD S 0 = N := by
  unfold exactOffsets
  rw [List.getD_eq_getElem?_getD, List.getElem?_append_right (by simp)]
  simp

/-- The boundary after the one at `i < S`: the next multiple of `L`, or `N` at
the end. -/
theorem exactOffsets_getD_succ {S N i : Nat} (hi : i < S) :
    (exactOffsets S N).getD (i + 1) 0 = if i + 1 = S then N else (i + 1) * (N / S) := by
  by_cases h : i + 1 = S
  · rw [if_pos h, h, exactOffsets_getD_last]
  · rw [if_neg h, exactOffsets_getD_lt (by omega)]

/-- Inside the `int` range the boundaries form the partition of the
specification: `S + 1` entries from `0` to `N`, segments `0 .. S-2` of length
`floor(N / S)` and segment `S-1` of length `N - (S-1) * floor(N / S)`. -/
theorem ArrayWorker.new_partition {S N : Nat} (hS : 1 ≤ S) (hSN : S < N) (hN : N ≤ INT_MAX) :
    ∃ w, ArrayWorker.new S N = .ok w ∧
      w.server_offsets_.length = S + 1 ∧ w.boundary 0 = 0 ∧ w.boundary S = N ∧
      (∀ i, i + 1 < S → w.boundary i + N / S = w.boundary (i + 1)) ∧
      w.boundary (S - 1) + (N - (S - 1) * (N / S)) = N ∧
      (∀ i, i < S → w.segLen i = if i + 1 = S then N - (S - 1) * (N / S) else N / S) := by
  refine ⟨_, ArrayWorker.new_eq_exact hS hSN hN, exactOffsets_length S N, ?_, ?_, ?_, ?_, ?_⟩
  · show (exactOffsets S N).getD 0 0 = 0
    rw [exactOffsets_getD_lt (show 0 < S by omega), Nat.zero_mul]
  · exact exactOffsets_getD_last S N
  · intro i hi
    simp only [ArrayWorker.boundary]
    rw [exactOffsets_getD_lt (by omega), exactOffsets_getD_lt hi]
    ring
  · simp only [ArrayWorker.boundary]
    rw [exactOffsets_getD_lt (by omega)]
    have := mul_div_le_of_lt (i := S - 1) (S := S) (N := N) (by omega)
    omega
  · intro i hi
    have hN0 : N ≤ 2147483647 := hN
    simp only [ArrayWorker.segLen, ArrayWorker.boundary]
    rw [exactOffsets_getD_succ hi, exactOffsets_getD_lt hi]
    have hle : i * (N / S) ≤ N := mul_div_le_of_lt hi
    by_cases h : i + 1 = S
    · rw [if_pos h, if_pos h, subSizeT_of_le hle (by unfold SIZE_MOD; omega)]
      have : i = S - 1 := by omega
      rw [this]
    · rw [if_neg h, if_neg h]
      have hle2 : (i + 1) * (N / S) ≤ N := mul_div_le_of_lt (by omega)
      rw [subSizeT_of_le (Nat.mul_le_mul_right _ (Nat.le_add_right i 1)) (by unfold SIZE_MOD; omega)]
      rw [Nat.add_mul, Nat.one_mul, Nat.add_sub_cancel_left]

/-- The boundaries for `N = 10` and `S = 3` are `[0, 3, 6, 10]`. -/
theorem ArrayWorker.new_partition_example :
    ∃ w, ArrayWorker.new 3 10 = .ok w ∧
      w.server_offsets_.length = 3 + 1 ∧ w.boundary 0 = 0 ∧ w.boundary 3 = 10 ∧
      (∀ i, i + 1 < 3 → w.boundary i + 10 / 3 = w.boundary (i + 1)) ∧
      w.boundary (3 - 1) + (10 - (3 - 1) * (10 / 3)) = 10 ∧
      (∀ i, i < 3 → w.segLen i = if i + 1 = 3 then 10 - (3 - 1) * (10 / 3) else 10 / 3) :=
  ArrayWorker.new_partition (by decide) (by decide) (by decide)

/-- C1 (defect of the code): for `N = 2 ^ 31` elements on `S = 2` servers the
constructor passes its `CHECK` and stores the boundaries
`[0, 2 ^ 64 - 2 ^ 30, 2 ^ 31]`: `static_cast<int>(size_)` is `-2 ^ 31`, so
`length` is `-2 ^ 30`.  Segment `0` does not have length `floor(N / S)` and the
boundaries decrease, so they are no partition of `[0, N)`. -/
theorem ArrayWorker.new_two_pow_31 :
    ArrayWorker.new 2 2147483648 =
      .ok { size_ := 2147483648, num_server_ := 2,
            server_offsets_ := [0, 18446744072635809792, 2147483648] } ∧
    (ArrayWorker.new 2 2147483648).map (fun w => w.segLen 0) ≠ .ok (2147483648 / 2) ∧
    (ArrayWorker.new 2 2147483648).map
      (fun w => decide (w.boundary 1 ≤ w.boundary 2)) = .ok false := by
  decide

/-- Inside the `int` range the server of rank `i` computes the length of the
worker's segment `i`. -/
theorem ArrayServer.localSize_eq_segLen {S N i : Nat} (hS : 1 ≤ S) (hSN : S < N)
    (hN : N ≤ INT_MAX) (hi : i < S) :
    ∃ w, ArrayWorker.new S N = .ok w ∧ ArrayServer.localSize i S N = w.segLen i := by
  obtain ⟨w, hw, -, -, -, -, -, hseg⟩ := ArrayWorker.new_partition hS hSN hN
  refine ⟨w, hw, ?_⟩
  have hN0 : N ≤ 2147483647 := hN
  rw [hseg i hi]
  unfold ArrayServer.localSize
  have hdm : S * (N / S) + N % S = N := Nat.div_add_mod N S
  have hmod : N % S < S := Nat.mod_lt _ (by omega)
  have hdiv : N / S ≤ N := Nat.div_le_self N S
  by_cases h : i + 1 = S
  · rw [if_pos (by omega), if_pos h, addSizeT_of_lt (by unfold SIZE_MOD; omega)]
    have hsub : (S - 1) * (N / S) = S * (N / S) - N / S := Nat.sub_one_mul S (N / S)
    have hge : N / S ≤ S * (N / S) := Nat.le_mul_of_pos_left _ (by omega)
    rw [hsub]
    generalize S * (N / S) = P at hdm hge ⊢
    generalize N / S = L at hge hdiv ⊢
    generalize N % S = M at hdm hmod ⊢
    omega
  · rw [if_neg (by omega), if_neg h]

/-- The last server for `N = 10` and `S = 3` computes the length of the worker's
last segment. -/
theorem ArrayServer.localSize_eq_segLen_example :
    ∃ w, ArrayWorker.new 3 10 = .ok w ∧ ArrayServer.localSize 2 3 10 = w.segLen 2 :=
  ArrayServer.localSize_eq_segLen (by decide) (by decide) (by decide) (by decide)

/-- C2 (defect of the code, the narrowing cast of the worker's constructor): for
`N = 2 ^ 31` and `S = 2` the server of rank `0` computes the local length
`2 ^ 30`, while the worker's segment `0`,
`server_offsets_[1] - server_offsets_[0]`, is `2 ^ 64 - 2 ^ 30`. -/
theorem ArrayServer.new_two_pow_31_disagrees :
    (ArrayServer.new 1 0 2 2147483648).map (fun s => s.size_) = .ok 1073741824 ∧
    (ArrayWorker.new 2 2147483648).map (fun w => w.segLen 0) = .ok 18446744072635809792 := by
  decide

/-- C3: for a table of `N` elements on `S ≥ 1` servers the constructor of the
server of rank `r < S` succeeds with `size_ = floor(N / S)` for `r < S - 1` and
`size_ = floor(N / S) + N mod S` for `r = S - 1`, and its storage holds exactly
`size_` elements (`size_ * sizeof(T)` bytes). -/
theorem ArrayServer.new_size (sizeofT N S r : Nat) (hS : 1 ≤ S) (hr : r < S)
    (hN : N < SIZE_MOD) :
    ∃ s, ArrayServer.new sizeofT r S N = .ok s ∧
      s.size_ = (if r < S - 1 then N / S else N / S + N % S) ∧
      s.storage_.length = s.size_ * sizeofT ∧
      (0 < sizeofT → s.storageSize sizeofT = s.size_) := by
  have hsz : ArrayServer.localSize r S N = if r < S - 1 then N / S else N / S + N % S := by
    unfold ArrayServer.localSize
    have hdm : S * (N / S) + N % S = N := Nat.div_add_mod N S
    have hge : N / S ≤ S * (N / S) := Nat.le_mul_of_pos_left _ (by omega)
    by_cases h : r < S - 1
    · rw [if_neg (by omega), if_pos h]
    · rw [if_pos (by omega), if_neg h, addSizeT_of_lt (by omega)]
  refine ⟨⟨r, List.replicate (ArrayServer.localSize r S N * sizeofT) 0,
    ArrayServer.localSize r S N⟩, ?_, hsz, by simp, ?_⟩
  · unfold ArrayServer.new
    rw [if_neg (by omega)]
  · intro hpos
    simp [ArrayServer.storageSize, Nat.mul_div_cancel _ hpos]

/-- The constructor of the last server for `N = 10`, `S = 3` and elements of 4
bytes: `size_ = 3 + 1` and a storage of 4 elements. -/
theorem ArrayServer.new_size_witness :
    ∃ s, ArrayServer.new 4 2 3 10 = .ok s ∧
      s.size_ = (if 2 < 3 - 1 then 10 / 3 else 10 / 3 + 10 % 3) ∧
      s.storage_.length = s.size_ * 4 ∧
      (0 < 4 → s.storageSize 4 = s.size_) :=
  ArrayServer.new_size 4 10 3 2 (by decide) (by decide) (by decide)

/-- C4 (as stated, refuted): for `N = 10` and `S = 3` the servers of ranks `0`,
`1`, `2` do not compute the lengths `3`, `3`, `5`. -/
theorem ArrayServer.new_10_3_not_5 :
    ¬ ((ArrayServer.new 4 0 3 10).map (fun s => s.size_) = .ok 3 ∧
       (ArrayServer.new 4 1 3 10).map (fun s => s.size_) = .ok 3 ∧
       (ArrayServer.new 4 2 3 10).map (fun s => s.size_) = .ok 5 ∧
       (ArrayServer.new 4 2 3 10).map (fun s => s.size_) ≠
         (ArrayWorker.new 3 10).map (fun w => w.segLen 2)) := by
  decide

/-- C4 (amended): for `N = 10` and `S = 3` the servers of ranks `0`, `1`, `2`
compute the lengths `3`, `3`, `4` (`10 mod 3` is `1`), and the length `4` of
the last rank is the length of the worker's last segment. -/
theorem ArrayServer.new_10_3 :
    (ArrayServer.new 4 0 3 10).map (fun s => s.size_) = .ok 3 ∧
    (ArrayServer.new 4 1 3 10).map (fun s => s.size_) = .ok 3 ∧
    (ArrayServer.new 4 2 3 10).map (fun s => s.size_) = .ok 4 ∧
    (ArrayWorker.new 3 10).map (fun w => w.segLen 2) = .ok 4 ∧
    (ArrayServer.new 4 2 3 10).map (fun s => s.size_) =
      (ArrayWorker.new 3 10).map (fun w => w.segLen 2) := by
  decide

/-! ## The output map of `Partition` -/

/-- A push under a key that the map does not have adds an entry at the end. -/
theorem OutMap.push_map_of_not_mem (h : Nat → List Blob) (j : Nat) (b : Blob) :
    ∀ (l : List Nat), j ∉ l →
      OutMap.push (l.map (fun i => (i, h i))) j b = l.map (fun i => (i, h i)) ++ [(j, [b])]
  | [], _ => rfl
  | a :: l, hj => by
    have ha : a ≠ j := fun e => hj (e ▸ List.mem_cons_self _ _)
    have hl : j ∉ l := fun m => hj (List.mem_cons_of_mem _ m)
    simp only [List.map_cons, OutMap.push, if_neg ha, List.cons_append]
    rw [OutMap.push_map_of_not_mem h j b l hl]

/-- A push under a key that the map has extends the vector of that key. -/
theorem OutMap.push_map_of_mem (h : Nat → List Blob) (j : Nat) (b : Blob) :
    ∀ (l : List Nat), l.Nodup → j ∈ l →
      OutMap.push (l.map (fun i => (i, h i))) j b =
        l.map (fun i => (i, if i = j then h i ++ [b] else h i))
  | [], _, hj => absurd hj (List.not_mem_nil j)
  | a :: l, hnd, hj => by
    rw [List.nodup_cons] at hnd
    by_cases ha : a = j
    · subst ha
      simp only [List.map_cons, OutMap.push, if_true]
      congr 1
      apply List.map_congr_left
      intro i hi
      have : i ≠ a := fun e => hnd.1 (e ▸ hi)
      rw [if_neg this]
    · have hl : j ∈ l := by
        rcases List.mem_cons.1 hj with e | m
        · exact absurd e.symm ha
        · exact m
      simp only [List.map_cons, OutMap.push, if_neg ha]
      rw [OutMap.push_map_of_mem h j b l hnd.2 hl]

/-- The vector stored under a key of the map. -/
theorem OutMap.find_map (h : Nat → List Blob) (j : Nat) :
    ∀ (l : List Nat), j ∈ l → OutMap.find (l.map (fun i => (i, h i))) j = some (h j)
  | [], hj => absurd hj (List.not_mem_nil j)
  | a :: l, hj => by
    unfold OutMap.find
    by_cases ha : j = a
    · subst ha
      simp [List.lookup]
    · have hl : j ∈ l := by
        rcases List.mem_cons.1 hj with e | m
        · exact absurd e ha
        · exact m
      have hb : (j == a) = false := by simpa using ha
      simp only [List.map_cons, List.lookup, hb]
      exact OutMap.find_map h j l hl

/-- The keys of a map built from a list of keys. -/
theorem OutMap.keys_map (h : Nat → List Blob) (l : List Nat) :
    OutMap.keys (l.map (fun i => (i, h i))) = l := by
  simp [OutMap.keys, Function.comp_def]

/-- The first loop of `Partition` on an empty map: every shard gets the key. -/
theorem OutMap.foldl_push_range (key : Blob) (n : Nat) :
    (List.range n).foldl (fun (m : OutMap) i => m.push i key) [] =
      (List.range n).map (fun i => (i, [key])) := by
  induction n with
  | zero => rfl
  | succ n ih =>
    rw [List.range_succ, List.foldl_append, ih, List.map_append]
    simp only [List.foldl_cons, List.foldl_nil, List.map_cons, List.map_nil]
    exact OutMap.push_map_of_not_mem (fun _ => [key]) n key (List.range n) (by simp)

/-- The second loop of `Partition` after `j` rounds, when every slice is
defined: the shards below `j` have got their slice. -/
theorem OutMap.foldlM_push_range (key : Blob) (slice : Nat → Except Fault Blob)
    (sl : Nat → Blob) (S : Nat) (hsl : ∀ i, i < S → slice i = .ok (sl i)) :
    ∀ j, j ≤ S →
      (List.range j).foldlM
        (fun (m : OutMap) i => do
          let blob ← slice i
          pure (m.push i blob)) ((List.range S).map (fun i => (i, [key]))) =
      .ok ((List.range S).map (fun i => (i, if i < j then [key, sl i] else [key])))
  | 0, _ => by simp [pure, Except.pure]
  | j + 1, hj => by
    rw [List.range_succ, List.foldlM_append, OutMap.foldlM_push_range key slice sl S hsl j (by omega)]
    simp only [bind, Except.bind, List.foldlM_cons, List.foldlM_nil, hsl j (by omega), pure,
      Except.pure]
    rw [OutMap.push_map_of_mem _ j (sl j) (List.range S) (List.nodup_range S)
      (List.mem_range.2 (by omega))]
    congr 1
    apply List.map_congr_left
    intro i _
    by_cases hij : i = j
    · subst hij
      simp
    · by_cases hlt : i < j
      · rw [if_neg hij, if_pos hlt, if_pos (by omega)]
      · rw [if_neg hij, if_neg hlt, if_neg (by omega)]

/-! ## Well-formed workers -/

/-- The boundaries of a well-formed worker do not decrease. -/
theorem ArrayWorker.WF.boundary_mono {sizeofT : Nat} {w : ArrayWorker} (hw : w.WF sizeofT)
    {i : Nat} : ∀ {j : Nat}, i ≤ j → j ≤ w.num_server_ → w.boundary i ≤ w.boundary j := by
  intro j hij
  induction j, hij using Nat.le_induction with
  | base => intro _; exact Nat.le_refl _
  | succ j _ ih =>
    intro hj
    exact Nat.le_trans (ih (by omega)) (hw.mono j (by omega))

/-- Every boundary of a well-formed worker is at most `size_`. -/
theorem ArrayWorker.WF.boundary_le_size {sizeofT : Nat} {w : ArrayWorker} (hw : w.WF sizeofT)
    {i : Nat} (hi : i ≤ w.num_server_) : w.boundary i ≤ w.size_ := by
  have := hw.boundary_mono hi (Nat.le_refl _)
  rwa [hw.last] at this

/-- Indexing `server_offsets_` at `i ≤ S` is defined. -/
theorem ArrayWorker.WF.offsetAt_eq {sizeofT : Nat} {w : ArrayWorker} (hw : w.WF sizeofT)
    {i : Nat} (hi : i ≤ w.num_server_) : w.offsetAt i = .ok (w.boundary i) := by
  have hlt : i < w.server_offsets_.length := by rw [hw.length_eq]; omega
  unfold ArrayWorker.offsetAt ArrayWorker.boundary
  rw [List.get?_eq_getElem?, List.getD_eq_getElem?_getD, List.getElem?_eq_getElem hlt]
  rfl

/-- Every byte boundary is at most the byte size of the table. -/
theorem ArrayWorker.WF.mul_le {sizeofT : Nat} {w : ArrayWorker} (hw : w.WF sizeofT)
    {i : Nat} (hi : i ≤ w.num_server_) : w.boundary i * sizeofT ≤ w.size_ * sizeofT :=
  Nat.mul_le_mul_right _ (hw.boundary_le_size hi)

/-- The segment lengths of a well-formed worker do not wrap. -/
theorem ArrayWorker.WF.segLen_eq {sizeofT : Nat} {w : ArrayWorker} (hw : w.WF sizeofT)
    {i : Nat} (hi : i < w.num_server_) :
    w.segLen i = w.boundary (i + 1) - w.boundary i := by
  have h1 := hw.boundary_le_size (i := i + 1) (by omega)
  have h2 := hw.size_lt
  exact subSizeT_of_le (hw.mono i hi) (by omega)

/-- The slice of shard `i` that `Partition` cuts from a value Blob of the whole
table: the byte range `[B[i] * sizeof(T), B[i+1] * sizeof(T))`. -/
theorem ArrayWorker.WF.slice_eq {sizeofT : Nat} {w : ArrayWorker} (hw : w.WF sizeofT)
    (value : Blob) (hv : value.size = w.size_ * sizeofT) {i : Nat} (hi : i < w.num_server_) :
    w.slice sizeofT value i =
      .ok ⟨byteRange value.bytes (w.boundary i * sizeofT) (w.boundary (i + 1) * sizeofT)⟩ := by
  have hlo := hw.mul_le (i := i) (by omega)
  have hhi := hw.mul_le (i := i + 1) (by omega)
  have hfit := hw.fits
  have hm := hw.mono i hi
  have hseg : subSizeT (w.boundary (i + 1)) (w.boundary i) = w.boundary (i + 1) - w.boundary i :=
    hw.segLen_eq hi
  have hsub : (w.boundary (i + 1) - w.boundary i) * sizeofT =
      w.boundary (i + 1) * sizeofT - w.boundary i * sizeofT := Nat.sub_mul _ _ _
  have hmm : w.boundary i * sizeofT ≤ w.boundary (i + 1) * sizeofT :=
    Nat.mul_le_mul_right _ hm
  unfold ArrayWorker.slice
  simp only [hw.offsetAt_eq (show i ≤ w.num_server_ by omega),
    hw.offsetAt_eq (show i + 1 ≤ w.num_server_ by omega), bind, Except.bind, hseg]
  rw [mulSizeT_of_lt (by omega), mulSizeT_of_lt (by omega), hsub]
  unfold Blob.region byteRange
  unfold Blob.size at hv
  rw [if_pos (by omega)]

/-- The method `Partition` on a key-only request on an empty map. -/
theorem ArrayWorker.Partition_key (sizeofT : Nat) (w : ArrayWorker) (key : Blob) :
    w.Partition sizeofT [key] [] =
      .ok (w.num_server_, (List.range w.num_server_).map (fun i => (i, [key]))) := by
  simp [ArrayWorker.Partition, CHECK, bind, Except.bind, pure, Except.pure,
    OutMap.foldl_push_range]

/-- The method `Partition` on a key and a value Blob of the whole table on an empty map. -/
theorem ArrayWorker.WF.Partition_key_value {sizeofT : Nat} {w : ArrayWorker}
    (hw : w.WF sizeofT) (key value : Blob) (hv : value.size = w.size_ * sizeofT) :
    w.Partition sizeofT [key, value] [] =
      .ok (w.num_server_, (List.range w.num_server_).map (fun i =>
        (i, [key, ⟨byteRange value.bytes (w.boundary i * sizeofT)
          (w.boundary (i + 1) * sizeofT)⟩]))) := by
  have hfold := OutMap.foldlM_push_range key (w.slice sizeofT value)
    (fun i => ⟨byteRange value.bytes (w.boundary i * sizeofT) (w.boundary (i + 1) * sizeofT)⟩)
    w.num_server_ (fun i hi => hw.slice_eq value hv hi) w.num_server_ (Nat.le_refl _)
  have hv2 : value.size = mulSizeT w.size_ sizeofT := by
    rw [mulSizeT_of_lt hw.fits, hv]
  simp only [ArrayWorker.Partition, CHECK, bind, Except.bind, pure, Except.pure,
    OutMap.foldl_push_range, List.length_cons, List.length_nil]
  simp only [bind, Except.bind, pure, Except.pure] at hfold
  rw [if_pos (by decide)]
  simp only [if_pos hv2, hfold]
  congr 2
  apply List.map_congr_left
  intro i hi
  rw [if_pos (List.mem_range.1 hi)]

/-! ## Integers in memory -/

/-- Reading back `k` little-endian bytes gives the value modulo `256 ^ k`. -/
theorem decodeLE_encodeLE (k : Nat) : ∀ n : Nat, decodeLE (encodeLE k n) = n % 256 ^ k := by
  induction k with
  | zero => intro n; simp [encodeLE, decodeLE, Nat.mod_one]
  | succ k ih =>
    intro n
    have h := ih (n / 256)
    unfold decodeLE at h
    simp only [encodeLE, decodeLE, List.foldr_cons, h]
    rw [pow_succ', Nat.mod_mul]

/-- The encoding `encodeLE k` gives `k` bytes. -/
theorem encodeLE_length (k : Nat) : ∀ n : Nat, (encodeLE k n).length = k := by
  induction k with
  | zero => intro n; rfl
  | succ k ih => intro n; simp [encodeLE, ih]

/-- An `int` stored in a Blob is read back by `As<int>()`. -/
theorem Blob.asInt_ofInt_natCast {n : Nat} (h : n ≤ INT_MAX) :
    (Blob.ofInt (n : Int)).asInt = .ok (n : Int) := by
  have h0 : n ≤ 2147483647 := h
  have h1 : ((n : Int) % 2 ^ 32).toNat = n := by omega
  unfold Blob.asInt Blob.ofInt Blob.size
  simp only [h1, encodeLE_length]
  rw [if_pos (by decide), List.take_of_length_le (by rw [encodeLE_length]),
    decodeLE_encodeLE, Nat.mod_eq_of_lt (by omega), castInt_of_le h]

/-- The whole-table key `-1` is read back by `As<int>()`. -/
theorem Blob.asInt_ofInt_neg_one : (Blob.ofInt (-1)).asInt = .ok (-1) := by decide

/-! ## Memory regions -/

/-- The size of a byte range inside the region. -/
theorem byteRange_length {mem : List Byte} {lo hi : Nat} (h : hi ≤ mem.length) :
    (byteRange mem lo hi).length = hi - lo := by
  unfold byteRange
  rw [List.length_take, List.length_drop]
  omega

/-- The bytes of a byte range. -/
theorem byteRange_getElem? (mem : List Byte) (lo hi j : Nat) :
    (byteRange mem lo hi)[j]? = if j < hi - lo then mem[lo + j]? else none := by
  unfold byteRange
  rw [List.getElem?_take, List.getElem?_drop]

/-- The bytes of the region after `memcpy`. -/
theorem memcpy_getElem? {mem src : List Byte} {off : Nat} (h : off + src.length ≤ mem.length)
    (k : Nat) :
    (mem.take off ++ src ++ mem.drop (off + src.length))[k]? =
      if off ≤ k ∧ k < off + src.length then src[k - off]? else mem[k]? := by
  have hl : (mem.take off).length = off := by rw [List.length_take]; omega
  by_cases h1 : k < off
  · rw [if_neg (by omega), List.append_assoc, List.getElem?_append_left (by omega),
      List.getElem?_take_of_lt h1]
  · by_cases h2 : k < off + src.length
    · rw [if_pos ⟨by omega, h2⟩, List.getElem?_append_left (by simp; omega),
        List.getElem?_append_right (by omega), hl]
    · rw [if_neg (by omega), List.getElem?_append_right (by simp; omega),
        List.getElem?_drop]
      congr 1
      simp only [List.length_append, hl]
      omega

/-- The call `memcpy` keeps the extent of the region. -/
theorem memcpy_length {mem src : List Byte} {off : Nat} (h : off + src.length ≤ mem.length) :
    (mem.take off ++ src ++ mem.drop (off + src.length)).length = mem.length := by
  simp only [List.length_append, List.length_take, List.length_drop]
  omega

/-! ## Merging replies -/

/-- A reply of shard `id` whose value Blob has the byte length of the segment is
accepted and copied to the segment. -/
theorem ArrayWorker.WF.ProcessReplyGet_eq {sizeofT : Nat} {w : ArrayWorker}
    (hw : w.WF sizeofT) (hpos : 0 < sizeofT) {id : Nat} (hid : id < w.num_server_)
    (hmax : id ≤ INT_MAX) (v : Blob)
    (hv : v.size = (w.boundary (id + 1) - w.boundary id) * sizeofT)
    (data_ : List Byte) (hd : data_.length = w.size_ * sizeofT) :
    w.ProcessReplyGet sizeofT data_ [Blob.ofInt (id : Int), v] =
      .ok (data_.take (w.boundary id * sizeofT) ++ v.bytes ++
        data_.drop (w.boundary id * sizeofT + v.bytes.length)) := by
  have hhi := hw.mul_le (i := id + 1) (by omega)
  have hm := hw.mono id hid
  have hseg : subSizeT (w.boundary (id + 1)) (w.boundary id) =
      w.boundary (id + 1) - w.boundary id := hw.segLen_eq hid
  have hsub : (w.boundary (id + 1) - w.boundary id) * sizeofT =
      w.boundary (id + 1) * sizeofT - w.boundary id * sizeofT := Nat.sub_mul _ _ _
  have hmm : w.boundary id * sizeofT ≤ w.boundary (id + 1) * sizeofT :=
    Nat.mul_le_mul_right _ hm
  have hcnt : v.sizeAs sizeofT = w.boundary (id + 1) - w.boundary id := by
    unfold Blob.sizeAs
    rw [hv, Nat.mul_div_cancel _ hpos]
  have hbytes : v.bytes.length = v.size := rfl
  unfold ArrayWorker.ProcessReplyGet
  simp only [CHECK, List.length_cons, List.length_nil, bind, Except.bind,
    Blob.asInt_ofInt_natCast hmax, Int.toNat_ofNat,
    hw.offsetAt_eq (show id ≤ w.num_server_ by omega),
    hw.offsetAt_eq (show id + 1 ≤ w.num_server_ by omega), hseg, hcnt]
  rw [if_pos (by decide), if_neg (by omega)]
  simp only [if_true]
  unfold memcpy
  rw [if_pos (by omega)]

/-- Every byte of the table lies in the segment of some shard. -/
theorem ArrayWorker.WF.cover {sizeofT : Nat} {w : ArrayWorker} (hw : w.WF sizeofT)
    {k : Nat} (hk : k < w.size_ * sizeofT) :
    ∃ i, i < w.num_server_ ∧ w.boundary i * sizeofT ≤ k ∧ k < w.boundary (i + 1) * sizeofT := by
  have key : ∀ j, j ≤ w.num_server_ → k < w.boundary j * sizeofT →
      ∃ i, i < j ∧ w.boundary i * sizeofT ≤ k ∧ k < w.boundary (i + 1) * sizeofT := by
    intro j
    induction j with
    | zero =>
      intro _ h
      rw [hw.first, Nat.zero_mul] at h
      exact absurd h (Nat.not_lt_zero k)
    | succ j ih =>
      intro hj h
      by_cases hlt : k < w.boundary j * sizeofT
      · obtain ⟨i, hi, h1, h2⟩ := ih (by omega) hlt
        exact ⟨i, by omega, h1, h2⟩
      · exact ⟨j, by omega, by omega, h⟩
  obtain ⟨i, hi, h1, h2⟩ := key w.num_server_ (Nat.le_refl _) (by rw [hw.last]; exact hk)
  exact ⟨i, hi, h1, h2⟩

/-- The merge of the slices of `buf` for the shards of `order` into `data_`:
the bytes of the segments of these shards become those of `buf`, the others
stay. -/
theorem ArrayWorker.WF.mergeSlices_spec {sizeofT : Nat} {w : ArrayWorker}
    (hw : w.WF sizeofT) (hpos : 0 < sizeofT) (hmax : w.num_server_ ≤ INT_MAX)
    (key : Blob) (buf : List Byte) (hb : buf.length = w.size_ * sizeofT) :
    ∀ (order : List Nat) (data_ : List Byte), (∀ i ∈ order, i < w.num_server_) →
      data_.length = w.size_ * sizeofT →
      ∃ r, w.mergeSlices sizeofT
          ((List.range w.num_server_).map (fun i =>
            (i, [key, ⟨byteRange buf (w.boundary i * sizeofT)
              (w.boundary (i + 1) * sizeofT)⟩]))) order data_ = .ok r ∧
        r.length = w.size_ * sizeofT ∧
        ∀ k, r[k]? =
          if ∃ i ∈ order, w.boundary i * sizeofT ≤ k ∧ k < w.boundary (i + 1) * sizeofT
          then buf[k]? else data_[k]? := by
  intro order
  induction order with
  | nil =>
    intro data_ _ hd
    exact ⟨data_, rfl, hd, fun k => by simp⟩
  | cons a order ih =>
    intro data_ hmem hd
    have ha : a < w.num_server_ := hmem a (List.mem_cons_self _ _)
    have hhi := hw.mul_le (i := a + 1) (by omega)
    have hmm : w.boundary a * sizeofT ≤ w.boundary (a + 1) * sizeofT :=
      Nat.mul_le_mul_right _ (hw.mono a ha)
    have hlen : (byteRange buf (w.boundary a * sizeofT) (w.boundary (a + 1) * sizeofT)).length =
        w.boundary (a + 1) * sizeofT - w.boundary a * sizeofT :=
      byteRange_length (by omega)
    have hstep := hw.ProcessReplyGet_eq hpos ha (by omega)
      ⟨byteRange buf (w.boundary a * sizeofT) (w.boundary (a + 1) * sizeofT)⟩
      (by unfold Blob.size; rw [hlen, Nat.sub_mul]) data_ hd
    have hbound : w.boundary a * sizeofT +
        (byteRange buf (w.boundary a * sizeofT) (w.boundary (a + 1) * sizeofT)).length ≤
          data_.length := by omega
    obtain ⟨r, hr, hrl, hrk⟩ := ih _ (fun i hi => hmem i (List.mem_cons_of_mem _ hi))
      ((memcpy_length hbound).trans hd)
    refine ⟨r, ?_, hrl, ?_⟩
    · unfold ArrayWorker.mergeSlices at hr ⊢
      rw [List.foldlM_cons, OutMap.find_map _ a _ (List.mem_range.2 ha)]
      simp only [hstep, bind, Except.bind]
      exact hr
    · intro k
      rw [hrk k, memcpy_getElem? hbound k, byteRange_getElem?, hlen]
      by_cases h1 : ∃ i ∈ order, w.boundary i * sizeofT ≤ k ∧ k < w.boundary (i + 1) * sizeofT
      · obtain ⟨i, hi, hik⟩ := h1
        rw [if_pos ⟨i, hi, hik⟩, if_pos ⟨i, List.mem_cons_of_mem _ hi, hik⟩]
      · rw [if_neg h1]
        by_cases h2 : w.boundary a * sizeofT ≤ k ∧ k < w.boundary (a + 1) * sizeofT
        · rw [if_pos (by omega), if_pos (by omega), if_pos ⟨a, List.mem_cons_self _ _, h2⟩]
          congr 1
          omega
        · rw [if_neg (by omega), if_neg]
          rintro ⟨i, hi, hik⟩
          rcases List.mem_cons.1 hi with e | m
          · subst e; exact h2 hik
          · exact h1 ⟨i, m, hik⟩

/-! ## Workers built by the constructor -/

/-- Inside the `int` range the constructor builds a well-formed worker. -/
theorem ArrayWorker.new_WF {S N : Nat} (sizeofT : Nat) (hS : 1 ≤ S) (hSN : S < N)
    (hN : N ≤ INT_MAX) (hfit : N * sizeofT < SIZE_MOD) :
    ∃ w, ArrayWorker.new S N = .ok w ∧ w.WF sizeofT ∧ w.size_ = N ∧ w.num_server_ = S := by
  have hN0 : N ≤ 2147483647 := hN
  refine ⟨_, ArrayWorker.new_eq_exact hS hSN hN, ?_, rfl, rfl⟩
  refine ⟨exactOffsets_length S N, ?_, exactOffsets_getD_last S N, ?_, ?_, hfit⟩
  · show (exactOffsets S N).getD 0 0 = 0
    rw [exactOffsets_getD_lt (show 0 < S by omega), Nat.zero_mul]
  · intro i hi
    show (exactOffsets S N).getD i 0 ≤ (exactOffsets S N).getD (i + 1) 0
    have hi' : i < S := hi
    rw [exactOffsets_getD_lt hi', exactOffsets_getD_succ hi']
    by_cases h : i + 1 = S
    · rw [if_pos h]; exact mul_div_le_of_lt hi'
    · rw [if_neg h]; exact Nat.mul_le_mul_right _ (Nat.le_add_right i 1)
  · show N < SIZE_MOD
    unfold SIZE_MOD; omega

/-- Partition and merge inside the `int` range: for `S < N ≤ INT_MAX`, a buffer
of `N` elements and any order of the `S` shards, `Partition` of `[key, buffer]`
followed by one `ProcessReplyGet` for every shard, in that order, with the
reply `[i, slice i]`, leaves any target of `N` elements equal to the buffer. -/
theorem ArrayWorker.partition_merge_roundtrip {S N sizeofT : Nat} (hS : 1 ≤ S) (hSN : S < N)
    (hN : N ≤ INT_MAX) (hpos : 0 < sizeofT) (hfit : N * sizeofT < SIZE_MOD)
    (key : Blob) (buf : List Byte) (hb : buf.length = N * sizeofT)
    (order : List Nat) (hperm : order.Perm (List.range S))
    (target : List Byte) (ht : target.length = N * sizeofT) :
    ∃ w out, ArrayWorker.new S N = .ok w ∧
      w.Partition sizeofT [key, ⟨buf⟩] [] = .ok (S, out) ∧
      w.mergeSlices sizeofT out order target = .ok buf := by
  obtain ⟨w, hnew, hw, hsz, hnum⟩ := ArrayWorker.new_WF sizeofT hS hSN hN hfit
  have hN0 : N ≤ 2147483647 := hN
  have hb' : buf.length = w.size_ * sizeofT := by rw [hsz]; exact hb
  have hmem : ∀ i ∈ order, i < w.num_server_ := by
    intro i hi
    rw [hnum]
    exact List.mem_range.1 ((hperm.mem_iff).1 hi)
  obtain ⟨r, hr, hrl, hrk⟩ := hw.mergeSlices_spec hpos (by rw [hnum]; unfold INT_MAX; omega)
    key buf hb' order target hmem (by rw [hsz]; exact ht)
  refine ⟨w, (List.range w.num_server_).map (fun i =>
    (i, [key, ⟨byteRange buf (w.boundary i * sizeofT) (w.boundary (i + 1) * sizeofT)⟩])),
    hnew, ?_, ?_⟩
  · have := hw.Partition_key_value key ⟨buf⟩ hb'
    rw [hnum] at this ⊢
    exact this
  · rw [hr]
    congr 1
    apply List.ext_getElem?
    intro k
    rw [hrk k]
    by_cases hk : k < w.size_ * sizeofT
    · obtain ⟨i, hi, h1, h2⟩ := hw.cover hk
      have hio : i ∈ order := (hperm.mem_iff).2 (List.mem_range.2 (by rw [← hnum]; exact hi))
      rw [if_pos ⟨i, hio, h1, h2⟩]
    · have h1 : buf[k]? = none := List.getElem?_eq_none (by omega)
      have h2 : target[k]? = none := List.getElem?_eq_none (by omega)
      rw [h1, h2, ite_self]

/-- C6: on a well-formed worker and an empty map, `Partition` of a key-only
request returns `S` and gives every shard `0 .. S-1` exactly `[key]`; of a
key and a value Blob of the whole table (`size_ * sizeof(T)` bytes) it returns
`S` and gives shard `i` exactly `[key, v_i]`, with `v_i` the byte range
`[B[i] * sizeof(T), B[i+1] * sizeof(T))` of the value Blob.  The map has
exactly the keys `0 .. S-1`. -/
theorem ArrayWorker.Partition_spec (sizeofT : Nat) (w : ArrayWorker) (hw : w.WF sizeofT)
    (key : Blob) :
    (∃ out, w.Partition sizeofT [key] [] = .ok (w.num_server_, out) ∧
      out.keys = List.range w.num_server_ ∧
      ∀ i, i < w.num_server_ → out.find i = some [key]) ∧
    (∀ value : Blob, value.size = w.size_ * sizeofT →
      ∃ out, w.Partition sizeofT [key, value] [] = .ok (w.num_server_, out) ∧
        out.keys = List.range w.num_server_ ∧
        ∀ i, i < w.num_server_ → out.find i =
          some [key, ⟨byteRange value.bytes (w.boundary i * sizeofT)
            (w.boundary (i + 1) * sizeofT)⟩]) := by
  refine ⟨⟨_, ArrayWorker.Partition_key sizeofT w key, OutMap.keys_map _ _, ?_⟩,
    fun value hv => ⟨_, hw.Partition_key_value key value hv, OutMap.keys_map _ _, ?_⟩⟩
  · intro i hi
    exact OutMap.find_map (fun _ => [key]) i _ (List.mem_range.2 hi)
  · intro i hi
    exact OutMap.find_map _ i _ (List.mem_range.2 hi)

/-- The method `Partition` on the worker that the constructor builds for `N = 10`, `S = 3`,
with elements of 2 bytes. -/
theorem ArrayWorker.Partition_spec_witness :
    ArrayWorker.new 3 10 = .ok ⟨10, 3, [0, 3, 6, 10]⟩ ∧
    (⟨10, 3, [0, 3, 6, 10]⟩ : ArrayWorker).WF 2 ∧
    (∃ out, (⟨10, 3, [0, 3, 6, 10]⟩ : ArrayWorker).Partition 2 [Blob.ofInt (-1)] [] =
        .ok (3, out) ∧
      out.keys = List.range 3 ∧ ∀ i, i < 3 → out.find i = some [Blob.ofInt (-1)]) ∧
    (⟨List.replicate 20 7⟩ : Blob).size = 10 * 2 ∧
    (∃ out, (⟨10, 3, [0, 3, 6, 10]⟩ : ArrayWorker).Partition 2
        [Blob.ofInt (-1), ⟨List.replicate 20 7⟩] [] = .ok (3, out) ∧
      out.keys = List.range 3 ∧
      ∀ i, i < 3 → out.find i =
        some [Blob.ofInt (-1), ⟨byteRange (List.replicate 20 7)
          ((⟨10, 3, [0, 3, 6, 10]⟩ : ArrayWorker).boundary i * 2)
          ((⟨10, 3, [0, 3, 6, 10]⟩ : ArrayWorker).boundary (i + 1) * 2)⟩]) :=
  ⟨by decide, ⟨by decide, by decide, by decide, by decide, by decide, by decide⟩,
    (ArrayWorker.Partition_spec 2 ⟨10, 3, [0, 3, 6, 10]⟩
      ⟨by decide, by decide, by decide, by decide, by decide, by decide⟩
      (Blob.ofInt (-1))).1,
    by decide,
    (ArrayWorker.Partition_spec 2 ⟨10, 3, [0, 3, 6, 10]⟩
      ⟨by decide, by decide, by decide, by decide, by decide, by decide⟩
      (Blob.ofInt (-1))).2 ⟨List.replicate 20 7⟩ (by decide)⟩

/-- On the worker that the constructor builds for `N = 2 ^ 31` and `S = 2`, the
slice of shard `0` of a value Blob of the whole table leaves the Blob, so
`Partition` has no defined result. -/
theorem ArrayWorker.Partition_two_pow_31 (key value : Blob)
    (hv : value.size = 2147483648 * 4) :
    (⟨2147483648, 2, [0, 18446744072635809792, 2147483648]⟩ : ArrayWorker).Partition 4
      [key, value] [] = .error .undefined := by
  have hr : List.range 2 = [0, 1] := rfl
  have hc : value.size = mulSizeT 2147483648 4 := by rw [hv]; decide
  have hl : value.bytes.length = 2147483648 * 4 := hv
  have hs : (⟨2147483648, 2, [0, 18446744072635809792, 2147483648]⟩ : ArrayWorker).slice 4
      value 0 = .error .undefined := by
    simp only [ArrayWorker.slice, ArrayWorker.offsetAt, List.get?, bind, Except.bind,
      Blob.region, hl]
    rw [if_neg (by decide)]
  simp only [ArrayWorker.Partition, CHECK, List.length_cons, List.length_nil, bind,
    Except.bind, hr, List.foldlM_cons, hs, if_pos hc]
  rw [if_pos (by decide)]

/-- C5 (defect of the code, the narrowing cast of the worker's constructor): for
`N = 2 ^ 31` elements of 4 bytes on `S = 2` servers the constructor succeeds, and `Partition` of
`[key, buffer]` for a buffer of `N` elements has no defined result: with the
boundaries `[0, 2 ^ 64 - 2 ^ 30, 2 ^ 31]` the slice of shard `0` leaves the
buffer.  No merge brings the buffer back. -/
theorem ArrayWorker.partition_two_pow_31_undefined :
    (ArrayWorker.new 2 2147483648).bind (fun w =>
      w.Partition 4 [Blob.ofInt (-1), ⟨List.replicate (2147483648 * 4) 0⟩] []) =
      .error .undefined := by
  have hnew : ArrayWorker.new 2 2147483648 =
      .ok ⟨2147483648, 2, [0, 18446744072635809792, 2147483648]⟩ := by decide
  have hl : (List.replicate (2147483648 * 4) (0 : Byte)).length = 2147483648 * 4 :=
    List.length_replicate _ _
  rw [hnew, bind_ok]
  generalize List.replicate (2147483648 * 4) (0 : Byte) = buf at hl ⊢
  exact ArrayWorker.Partition_two_pow_31 (Blob.ofInt (-1)) ⟨buf⟩ hl

/-- A reply that does not have exactly two Blobs aborts. -/
theorem ArrayWorker.ProcessReplyGet_of_length_ne (sizeofT : Nat) (w : ArrayWorker)
    (data_ : List Byte) (reply_data : List Blob) (h : reply_data.length ≠ 2) :
    w.ProcessReplyGet sizeofT data_ reply_data = .error .checkFailed := by
  unfold ArrayWorker.ProcessReplyGet
  simp only [CHECK, if_neg h, bind, Except.bind]

/-- A reply of shard `id` whose value Blob does not hold as many whole elements
as the segment aborts. -/
theorem ArrayWorker.WF.ProcessReplyGet_of_count_ne {sizeofT : Nat} {w : ArrayWorker}
    (hw : w.WF sizeofT) {id : Nat} (hid : id < w.num_server_) (hmax : id ≤ INT_MAX)
    (v : Blob) (hv : v.sizeAs sizeofT ≠ w.boundary (id + 1) - w.boundary id)
    (data_ : List Byte) :
    w.ProcessReplyGet sizeofT data_ [Blob.ofInt (id : Int), v] = .error .checkFailed := by
  have hseg : subSizeT (w.boundary (id + 1)) (w.boundary id) =
      w.boundary (id + 1) - w.boundary id := hw.segLen_eq hid
  unfold ArrayWorker.ProcessReplyGet
  simp only [CHECK, List.length_cons, List.length_nil, bind, Except.bind,
    Blob.asInt_ofInt_natCast hmax, Int.toNat_ofNat,
    hw.offsetAt_eq (show id ≤ w.num_server_ by omega),
    hw.offsetAt_eq (show id + 1 ≤ w.num_server_ by omega), hseg]
  rw [if_pos (by decide), if_neg (by omega)]
  simp only [if_neg hv]

/-- C10 (defect of the code): on the worker for `N = 10`, `S = 3` and elements
of 4 bytes, the reply `[0, v]` with a value Blob of 13 bytes is accepted,
although the segment of shard `0` has `(3 - 0) * 4 = 12` bytes: the `CHECK`
compares the element count `size<T>() = 13 / 4 = 3`.  The copy writes all 13
bytes, one of them into the segment of shard `1`. -/
theorem ArrayWorker.ProcessReplyGet_accepts_13_bytes :
    ArrayWorker.new 3 10 = .ok ⟨10, 3, [0, 3, 6, 10]⟩ ∧
    (⟨10, 3, [0, 3, 6, 10]⟩ : ArrayWorker).ProcessReplyGet 4 (List.replicate 40 0)
      [Blob.ofInt 0, ⟨List.replicate 13 1⟩] =
      .ok (List.replicate 13 1 ++ List.replicate 27 0) ∧
    (⟨List.replicate 13 1⟩ : Blob).size ≠
      ((⟨10, 3, [0, 3, 6, 10]⟩ : ArrayWorker).boundary 1 -
        (⟨10, 3, [0, 3, 6, 10]⟩ : ArrayWorker).boundary 0) * 4 := by
  decide

/-! ## Checkpoints -/

/-- The method `Load` on a stream that holds as many bytes as the storage replaces the
storage by these bytes and empties the stream. -/
theorem ArrayServer.Load_of_length (sizeofT : Nat) (f : ArrayServer) (bytes : List Byte)
    (hlen : f.storage_.length = bytes.length)
    (hfit : bytes.length < SIZE_MOD) (hmul : sizeofT ∣ bytes.length) :
    (f.Load sizeofT ⟨bytes⟩).1.storage_ = bytes ∧ (f.Load sizeofT ⟨bytes⟩).2.content = [] := by
  have hn : mulSizeT (f.storageSize sizeofT) sizeofT = bytes.length := by
    unfold ArrayServer.storageSize
    rw [hlen, mulSizeT_of_lt (by rw [Nat.div_mul_cancel hmul]; exact hfit),
      Nat.div_mul_cancel hmul]
  unfold ArrayServer.Load Stream.Read
  simp only [hn, hlen, Nat.min_self, List.take_length, List.drop_length, List.append_nil,
    List.drop_eq_nil_of_le (Nat.le_of_eq hlen), and_self]

/-- C8: `Store` appends exactly the `L * sizeof(T)` bytes of the storage to the
stream, without a header, and leaves the table as it is; `Load` of the stored
bytes into a freshly constructed server of the same `(N, S, r)` makes its
storage equal to the storage that was stored. -/
theorem ArrayServer.store_load_roundtrip (sizeofT N S r : Nat) (t : ArrayServer)
    (s0 : Stream) (hpos : 0 < sizeofT) (hS : 1 ≤ S)
    (hsz : t.size_ = ArrayServer.localSize r S N)
    (hlen : t.storage_.length = t.size_ * sizeofT) (hfit : t.storage_.length < SIZE_MOD) :
    (t.Store sizeofT s0).1 = t ∧
    (t.Store sizeofT s0).2.content = s0.content ++ t.storage_ ∧
    (t.Store sizeofT s0).2.content.length = s0.content.length + t.size_ * sizeofT ∧
    ∃ fresh, ArrayServer.new sizeofT r S N = .ok fresh ∧
      (fresh.Load sizeofT (t.Store sizeofT ⟨[]⟩).2).1.storage_ = t.storage_ ∧
      (fresh.Load sizeofT (t.Store sizeofT ⟨[]⟩).2).2.content = [] := by
  have hcnt : t.storageSize sizeofT = t.size_ := by
    unfold ArrayServer.storageSize
    rw [hlen, Nat.mul_div_cancel _ hpos]
  have hbytes : mulSizeT (t.storageSize sizeofT) sizeofT = t.storage_.length := by
    rw [hcnt, mulSizeT_of_lt (by rw [← hlen]; exact hfit), hlen]
  have hstore : ∀ s : Stream, (t.Store sizeofT s).2.content = s.content ++ t.storage_ := by
    intro s
    unfold ArrayServer.Store Stream.Write
    simp only [hbytes, List.take_length]
  have hstore' : (t.Store sizeofT ⟨[]⟩).2 = ⟨t.storage_⟩ := by
    unfold ArrayServer.Store Stream.Write
    simp only [hbytes, List.take_length, List.nil_append]
  refine ⟨rfl, hstore s0, by rw [hstore s0, List.length_append, hlen], ?_⟩
  refine ⟨⟨r, List.replicate (ArrayServer.localSize r S N * sizeofT) 0,
    ArrayServer.localSize r S N⟩, ?_, ?_, ?_⟩
  · unfold ArrayServer.new
    rw [if_neg (by omega)]
  · rw [hstore']
    exact (ArrayServer.Load_of_length sizeofT _ t.storage_
      (by simp only [List.length_replicate]; rw [← hsz, hlen]) hfit
      (by rw [hlen]; exact Nat.dvd_mul_left _ _)).1
  · rw [hstore']
    exact (ArrayServer.Load_of_length sizeofT _ t.storage_
      (by simp only [List.length_replicate]; rw [← hsz, hlen]) hfit
      (by rw [hlen]; exact Nat.dvd_mul_left _ _)).2

/-- The methods `Store` and `Load` for the last server of a table of `N = 10` elements of 2
bytes on `S = 3` servers. -/
theorem ArrayServer.store_load_roundtrip_witness :
    (⟨2, [1, 2, 3, 4, 5, 6, 7, 8], 4⟩ : ArrayServer).size_ = ArrayServer.localSize 2 3 10 ∧
    ((⟨2, [1, 2, 3, 4, 5, 6, 7, 8], 4⟩ : ArrayServer).Store 2 ⟨[9]⟩).1 =
      ⟨2, [1, 2, 3, 4, 5, 6, 7, 8], 4⟩ ∧
    ((⟨2, [1, 2, 3, 4, 5, 6, 7, 8], 4⟩ : ArrayServer).Store 2 ⟨[9]⟩).2.content =
      [9] ++ [1, 2, 3, 4, 5, 6, 7, 8] ∧
    ((⟨2, [1, 2, 3, 4, 5, 6, 7, 8], 4⟩ : ArrayServer).Store 2 ⟨[9]⟩).2.content.length =
      1 + 4 * 2 ∧
    ∃ fresh, ArrayServer.new 2 2 3 10 = .ok fresh ∧
      (fresh.Load 2
        ((⟨2, [1, 2, 3, 4, 5, 6, 7, 8], 4⟩ : ArrayServer).Store 2 ⟨[]⟩).2).1.storage_ =
        [1, 2, 3, 4, 5, 6, 7, 8] ∧
      (fresh.Load 2
        ((⟨2, [1, 2, 3, 4, 5, 6, 7, 8], 4⟩ : ArrayServer).Store 2 ⟨[]⟩).2).2.content = [] :=
  ⟨by decide, ArrayServer.store_load_roundtrip 2 10 3 2 ⟨2, [1, 2, 3, 4, 5, 6, 7, 8], 4⟩ ⟨[9]⟩
    (by decide) (by decide) (by decide) (by decide) (by decide)⟩

/-! ## Frames -/

/-- The call `zmq_send` on an endpoint, for a length inside the buffer. -/
theorem zmq_send_some (s : Socket) (buf : List Byte) (len : Nat) (flag : Bool)
    (h : len ≤ buf.length) :
    zmq_send (some s) buf len flag =
      .ok (some { s with frames := s.frames ++ [⟨buf.take len, flag⟩] },
        ((min len INT_MAX : Nat) : Int)) := by
  unfold zmq_send
  simp only [if_pos h]

/-- The call `zmq_recv` on a channel that holds a frame, for a length inside the buffer. -/
theorem zmq_recv_cons (f : Frame) (rest : List Frame) (m : Bool) (buf : List Byte) (len : Nat)
    (h : len ≤ buf.length) :
    zmq_recv ⟨f :: rest, m⟩ buf len =
      .ok (⟨rest, f.more⟩, f.payload.take len ++ buf.drop (f.payload.take len).length,
        ((min f.payload.length INT_MAX : Nat) : Int)) := by
  unfold zmq_recv
  simp only [if_pos h]

/-- The `int` returned for a frame of at most `INT_MAX` bytes, as a `size_t`. -/
theorem toSizeT_min_of_le {n : Nat} (h : n ≤ INT_MAX) :
    toSizeT ((min n INT_MAX : Nat) : Int) = n := by
  rw [Nat.min_eq_left h]
  exact toSizeT_natCast (by unfold INT_MAX at h; unfold SIZE_MOD; omega)

/-- A size of at most `INT_MAX` survives `static_cast<int>` and the way back. -/
theorem toSizeT_castInt_of_le {n : Nat} (h : n ≤ INT_MAX) : toSizeT (castInt n) = n := by
  rw [castInt_of_le h]
  exact toSizeT_natCast (by unfold INT_MAX at h; unfold SIZE_MOD; omega)

/-- The frames of a list of at least two Blobs. -/
theorem blobFrames_cons_cons (b b' : Blob) (rest : List Blob) :
    blobFrames (b :: b' :: rest) =
      ⟨encodeLE 8 b.size, true⟩ :: ⟨b.bytes, true⟩ :: blobFrames (b' :: rest) := by
  rw [blobFrames]

/-- The payloads of the frames: for each Blob its length in 8 bytes, then its bytes. -/
theorem blobFrames_payloads : ∀ blobs : List Blob,
    (blobFrames blobs).map Frame.payload =
      blobs.flatMap (fun b => [encodeLE 8 b.size, b.bytes])
  | [] => rfl
  | [b] => rfl
  | b :: b' :: rest => by
    rw [blobFrames_cons_cons, List.map_cons, List.map_cons, blobFrames_payloads (b' :: rest)]
    rfl

/-- Two frames for each Blob. -/
theorem blobFrames_length : ∀ blobs : List Blob, (blobFrames blobs).length = 2 * blobs.length
  | [] => rfl
  | [b] => rfl
  | b :: b' :: rest => by
    rw [blobFrames_cons_cons, List.length_cons, List.length_cons,
      blobFrames_length (b' :: rest)]
    simp only [List.length_cons]
    omega

/-- The loop of `Send` on Blobs of at most `INT_MAX` bytes writes the frames of
the specification. -/
theorem ZMQNetWrapper.sendBlobs_eq (n : Nat) (hn : n < SIZE_MOD) :
    ∀ (blobs : List Blob) (i : Nat) (s : Socket) (size : Nat),
      i + blobs.length = n → (∀ b ∈ blobs, b.size ≤ INT_MAX) →
      ∃ sz, ZMQNetWrapper.sendBlobs n i blobs (some s) size =
        .ok (some { s with frames := s.frames ++ blobFrames blobs }, sz)
  | [], i, s, size, _, _ => ⟨size, by simp [ZMQNetWrapper.sendBlobs, blobFrames]⟩
  | b :: rest, i, s, size, hi, hb => by
    have hbs : b.size ≤ INT_MAX := hb b (List.mem_cons_self _ _)
    have hbl : b.bytes.length = b.size := rfl
    have hrest : ∀ b' ∈ rest, b'.size ≤ INT_MAX := fun b' h => hb b' (List.mem_cons_of_mem _ h)
    have hlen : i + 1 + rest.length = n := by rw [← hi, List.length_cons]; omega
    have hsub : subSizeT n 1 = n - 1 := subSizeT_of_le (by omega) hn
    obtain ⟨sz, hsz⟩ := ZMQNetWrapper.sendBlobs_eq n hn rest (i + 1)
      { s with frames := s.frames ++ [⟨encodeLE 8 b.size, true⟩] ++
        [⟨b.bytes, if i = n - 1 then false else true⟩] }
      (addSizeT size (addSizeT b.size 8)) hlen hrest
    refine ⟨sz, ?_⟩
    unfold ZMQNetWrapper.sendBlobs
    simp only [bind, Except.bind, CHECK,
      zmq_send_some s (encodeLE 8 b.size) 8 true (by rw [encodeLE_length]),
      toSizeT_min_of_le (show 8 ≤ INT_MAX by decide), if_true,
      List.take_of_length_le (show (encodeLE 8 b.size).length ≤ 8 by rw [encodeLE_length]),
      toSizeT_castInt_of_le hbs, hsub]
    rw [zmq_send_some _ b.bytes b.size _ (by rw [hbl])]
    simp only [toSizeT_min_of_le hbs, if_true, List.take_of_length_le (Nat.le_of_eq hbl), hsz]
    have key : s.frames ++ [⟨encodeLE 8 b.size, true⟩] ++
        [⟨b.bytes, if i = n - 1 then false else true⟩] ++ blobFrames rest =
        s.frames ++ blobFrames (b :: rest) := by
      cases rest with
      | nil =>
        have : i = n - 1 := by simp only [List.length_nil] at hlen; omega
        simp [blobFrames, this]
      | cons b' rest' =>
        have : i ≠ n - 1 := by simp only [List.length_cons] at hlen; omega
        simp [blobFrames_cons_cons, this]
    rw [key]

/-- The method `Send` on a message with Blobs of at most `INT_MAX` bytes on an endpoint
writes the header frame and the frames of the Blobs. -/
theorem ZMQNetWrapper.sendOn_eq (kHeaderSize : Nat) (s : Socket) (msg : Message)
    (hk : kHeaderSize ≤ INT_MAX) (hh : msg.header.length = kHeaderSize)
    (hcount : msg.data.length < SIZE_MOD) (hb : ∀ b ∈ msg.data, b.size ≤ INT_MAX) :
    ∃ sz, ZMQNetWrapper.sendOn kHeaderSize (some s) msg =
      .ok (some { s with frames := s.frames ++ ⟨msg.header, true⟩ :: blobFrames msg.data },
        sz) := by
  obtain ⟨sz, hsz⟩ := ZMQNetWrapper.sendBlobs_eq msg.data.length hcount msg.data 0
    { s with frames := s.frames ++ [⟨msg.header, true⟩] }
    (addSizeT 0 (toSizeT ((min kHeaderSize INT_MAX : Nat) : Int))) (Nat.zero_add _) hb
  refine ⟨sz, ?_⟩
  unfold ZMQNetWrapper.sendOn
  simp only [bind, Except.bind, CHECK,
    zmq_send_some s msg.header kHeaderSize true (Nat.le_of_eq hh.symm),
    List.take_of_length_le (Nat.le_of_eq hh), Nat.min_eq_left hk, if_true]
  rw [Nat.min_eq_left hk] at hsz
  rw [hsz]
  simp

/-- A byte length of at most `INT_MAX` is read back from its length frame. -/
theorem decodeLE_encodeLE_size {n : Nat} (h : n ≤ INT_MAX) : decodeLE (encodeLE 8 n) = n := by
  rw [decodeLE_encodeLE]
  exact Nat.mod_eq_of_lt (by unfold INT_MAX at h; omega)

/-- The call `zmq_getsockopt` with a `more_size` of at least `sizeof(int)`
delivers the option. -/
theorem zmq_getsockopt_some (s : Socket) (more : Option Int) {n : Nat} (hn : 4 ≤ n) :
    zmq_getsockopt s more (some n) = .ok (some (if s.rcvmore then 1 else 0), some 4) := by
  unfold zmq_getsockopt
  simp only [readLocal, bind, Except.bind, if_neg (Nat.not_lt.2 hn), pure, Except.pure]

/-- The call `zmq_getsockopt` with a `more_size` that was never assigned is
undefined. -/
theorem zmq_getsockopt_none (s : Socket) (more : Option Int) :
    zmq_getsockopt s more none = .error .undefined := rfl

/-- One round of the loop of `Recv` on a length frame and a payload frame for
the Blob `b`, had `more_size` been set to `sizeof(int)` or more: the endpoint,
the message and the total after the round. -/
theorem ZMQNetWrapper.recvLoop_step (fuel : Nat) (b : Blob) (flag : Bool)
    (rest : List Frame) (msg : Message) (size : Nat) (hb : b.size ≤ INT_MAX)
    (more : Option Int) {n : Nat} (hn : 4 ≤ n) :
    ZMQNetWrapper.recvLoop (fuel + 1)
        ⟨⟨encodeLE 8 b.size, true⟩ :: ⟨b.bytes, flag⟩ :: rest, true⟩ msg size more (some n) =
      if flag = false then
        .ok (⟨rest, false⟩, msg.Push b, addSizeT (addSizeT size 8) b.size)
      else
        ZMQNetWrapper.recvLoop fuel ⟨rest, true⟩ (msg.Push b)
          (addSizeT (addSizeT size 8) b.size) (some 1) (some 4) := by
  have hbl : b.bytes.length = b.size := rfl
  have h8 : (encodeLE 8 b.size).length = 8 := encodeLE_length 8 b.size
  have hr8 : (List.replicate 8 (0 : Byte)).length = 8 := List.length_replicate _ _
  have e1 : zmq_recv ⟨⟨encodeLE 8 b.size, true⟩ :: ⟨b.bytes, flag⟩ :: rest, true⟩
      (List.replicate 8 0) 8 =
      .ok (⟨⟨b.bytes, flag⟩ :: rest, true⟩, encodeLE 8 b.size, ((8 : Nat) : Int)) := by
    rw [zmq_recv_cons _ _ _ _ _ (Nat.le_of_eq hr8.symm)]
    simp only [List.take_of_length_le (Nat.le_of_eq h8), h8,
      List.drop_eq_nil_of_le (Nat.le_of_eq hr8), List.append_nil]
    rfl
  have e2 : zmq_recv ⟨⟨b.bytes, flag⟩ :: rest, true⟩ (List.replicate b.size 0) b.size =
      .ok (⟨rest, flag⟩, b.bytes, ((b.size : Nat) : Int)) := by
    rw [zmq_recv_cons _ _ _ _ _ (Nat.le_of_eq (List.length_replicate _ _).symm)]
    simp only [List.take_of_length_le (Nat.le_of_eq hbl), hbl,
      List.drop_eq_nil_of_le (Nat.le_of_eq (List.length_replicate b.size (0 : Byte))),
      List.append_nil, Nat.min_eq_left hb]
  have t8 : toSizeT ((8 : Nat) : Int) = 8 := by decide
  have tb : toSizeT ((b.size : Nat) : Int) = b.size :=
    toSizeT_natCast (by unfold INT_MAX at hb; unfold SIZE_MOD; omega)
  have hsz : (⟨List.replicate b.size 0⟩ : Blob).size = b.size := List.length_replicate _ _
  rw [ZMQNetWrapper.recvLoop]
  simp only [bind, Except.bind, CHECK, zmq_getsockopt_some _ _ hn,
    zmq_getsockopt_some _ _ (Nat.le_refl 4), readLocal, if_true, e1, t8,
    decodeLE_encodeLE_size hb, hsz, e2, tb, pure, Except.pure]
  cases flag <;> simp

/-- The loop of `Recv` on the frames of a non-empty list of Blobs of at most
`INT_MAX` bytes, had `more_size` been set to `sizeof(int)` or more, appends
these Blobs to the message and empties the channel. -/
theorem ZMQNetWrapper.recvLoop_eq :
    ∀ (blobs : List Blob), blobs ≠ [] → (∀ b ∈ blobs, b.size ≤ INT_MAX) →
      ∀ (fuel : Nat) (msg : Message) (size : Nat) (more : Option Int) (n : Nat),
      blobs.length ≤ fuel → 4 ≤ n →
      ∃ sz, ZMQNetWrapper.recvLoop fuel ⟨blobFrames blobs, true⟩ msg size more (some n) =
        .ok (⟨[], false⟩, { msg with data := msg.data ++ blobs }, sz)
  | [], hne, _ => absurd rfl hne
  | [b], _, hb => by
    intro fuel msg size more n hf hn
    obtain ⟨fuel, rfl⟩ : ∃ k, fuel = k + 1 := ⟨fuel - 1, by simp at hf; omega⟩
    refine ⟨addSizeT (addSizeT size 8) b.size, ?_⟩
    show ZMQNetWrapper.recvLoop (fuel + 1)
      ⟨⟨encodeLE 8 b.size, true⟩ :: ⟨b.bytes, false⟩ :: [], true⟩ msg size more (some n) = _
    rw [ZMQNetWrapper.recvLoop_step fuel b false [] msg size (hb b (List.mem_cons_self _ _))
      more hn]
    rfl
  | b :: b' :: rest, _, hb => by
    intro fuel msg size more n hf hn
    obtain ⟨fuel, rfl⟩ : ∃ k, fuel = k + 1 := ⟨fuel - 1, by simp at hf; omega⟩
    obtain ⟨sz, hsz⟩ := ZMQNetWrapper.recvLoop_eq (b' :: rest) (List.cons_ne_nil _ _)
      (fun x hx => hb x (List.mem_cons_of_mem _ hx)) fuel (msg.Push b)
      (addSizeT (addSizeT size 8) b.size) (some 1) 4 (by simp at hf ⊢; omega) (Nat.le_refl 4)
    refine ⟨sz, ?_⟩
    rw [blobFrames_cons_cons,
      ZMQNetWrapper.recvLoop_step fuel b true _ msg size (hb b (List.mem_cons_self _ _))
        more hn]
    simp only [Message.Push, List.append_assoc, List.singleton_append] at hsz
    simp only [Bool.true_eq_false, if_false, Message.Push, hsz]

/-- The loop of `Recv` as `Recv` enters it, with `more_size` never assigned,
is undefined at its first statement, whatever the channel holds. -/
theorem ZMQNetWrapper.recvLoop_none (fuel : Nat) (responder_ : Socket) (msg : Message)
    (size : Nat) (more : Option Int) :
    ZMQNetWrapper.recvLoop (fuel + 1) responder_ msg size more none = .error .undefined := by
  rw [ZMQNetWrapper.recvLoop]
  rfl

/-- The method `Recv` returns on no channel and for no message. -/
theorem ZMQNetWrapper.Recv_ne_ok (kHeaderSize : Nat) (net : ZMQNetWrapper) (msg : Message)
    (r : ZMQNetWrapper × Message × Nat) : ZMQNetWrapper.Recv kHeaderSize net msg ≠ .ok r := by
  intro h
  unfold ZMQNetWrapper.Recv at h
  obtain ⟨⟨s1, hd, r1⟩, -, h⟩ := bind_eq_ok h
  obtain ⟨_, -, h⟩ := bind_eq_ok h
  obtain ⟨_, hl, -⟩ := bind_eq_ok h
  rw [ZMQNetWrapper.recvLoop_none] at hl
  exact absurd hl (by simp)

/-- The method `Send` on a message whose only Blob has `2 ^ 31` bytes does not succeed:
`static_cast<int>(blob.size())` is `-2 ^ 31`, so `zmq_send` is asked for
`2 ^ 64 - 2 ^ 31` bytes of the Blob. -/
theorem ZMQNetWrapper.sendOn_two_pow_31 (kHeaderSize : Nat) (s : Socket) (header : List Byte)
    (b : Blob) (hk : kHeaderSize ≤ INT_MAX) (hh : header.length = kHeaderSize)
    (hb : b.bytes.length = 2147483648) :
    ZMQNetWrapper.sendOn kHeaderSize (some s) ⟨header, [b]⟩ = .error .undefined := by
  have hsz : b.size = 2147483648 := hb
  have hc : toSizeT (castInt 2147483648) = 18446744071562067968 := by decide
  unfold ZMQNetWrapper.sendOn
  simp only [bind, Except.bind, CHECK,
    zmq_send_some s header kHeaderSize true (Nat.le_of_eq hh.symm), Nat.min_eq_left hk, if_true,
    ZMQNetWrapper.sendBlobs, hsz,
    zmq_send_some _ (encodeLE 8 2147483648) 8 true (by rw [encodeLE_length]),
    toSizeT_min_of_le (show 8 ≤ INT_MAX by decide), hc]
  unfold zmq_send
  simp only [hb]
  rw [if_neg (by decide)]

/-- C9 (defect of the code): for the message with a header of 4 bytes and the
one Blob `[9, 8, 7]`, `Send` on an empty channel writes the header frame, the
8-byte length frame and the payload frame; `Recv` on exactly these frames
does not succeed: after the header it passes `more_size`, which was never
assigned, to `zmq_getsockopt`, and that is undefined. -/
theorem ZMQNetWrapper.send_recv_fails :
    ZMQNetWrapper.sendOn 4 (some ⟨[], false⟩) ⟨[1, 2, 3, 4], [⟨[9, 8, 7]⟩]⟩ =
      .ok (some ⟨[⟨[1, 2, 3, 4], true⟩, ⟨encodeLE 8 3, true⟩, ⟨[9, 8, 7], false⟩], false⟩,
        15) ∧
    ZMQNetWrapper.Recv 4
        ⟨⟨[⟨[1, 2, 3, 4], true⟩, ⟨encodeLE 8 3, true⟩, ⟨[9, 8, 7], false⟩], false⟩, [], 0, 1⟩
        ⟨[0, 0, 0, 0], []⟩ = .error .undefined := by
  decide

/-! ## Accumulation, element by element -/

/-- Accumulation keeps the extent of the storage. -/
theorem accumulate_length (sizeofT : Nat) (add : List Byte → List Byte → List Byte)
    (hadd : ∀ x y, (add x y).length = x.length) :
    ∀ (n : Nat) (storage delta : List Byte),
      (accumulate sizeofT add n storage delta).length = storage.length :=
  (plainUpdater sizeofT add hadd).length_Update

/-- A byte range of a region without its first `a` bytes. -/
theorem byteRange_drop (mem : List Byte) (a lo hi : Nat) :
    byteRange (mem.drop a) lo hi = byteRange mem (a + lo) (a + hi) := by
  unfold byteRange
  rw [List.drop_drop, Nat.add_sub_add_left]

/-- A byte range that starts after the first part of a region. -/
theorem byteRange_append_right {x y : List Byte} {lo hi : Nat} (h : x.length ≤ lo) :
    byteRange (x ++ y) lo hi = byteRange y (lo - x.length) (hi - x.length) := by
  unfold byteRange
  rw [List.drop_append_eq_append_drop, List.drop_eq_nil_of_le h, List.nil_append]
  congr 1
  omega

/-- The byte range that is the first part of a region. -/
theorem byteRange_append_left {x y : List Byte} {hi : Nat} (h : hi = x.length) :
    byteRange (x ++ y) 0 hi = x := by
  unfold byteRange
  rw [List.drop_zero, Nat.sub_zero, h, List.take_left']
  rfl

/-- The element `k` of the accumulated storage is the sum of the elements `k` of
the storage and of the delta. -/
theorem accumulate_element (sizeofT : Nat) (add : List Byte → List Byte → List Byte)
    (hadd : ∀ x y, (add x y).length = x.length) :
    ∀ (n : Nat) (storage delta : List Byte) (k : Nat), k < n →
      n * sizeofT ≤ storage.length →
      element sizeofT (accumulate sizeofT add n storage delta) k =
        add (element sizeofT storage k) (element sizeofT delta k)
  | 0, _, _, _, hk, _ => absurd hk (Nat.not_lt_zero _)
  | n + 1, storage, delta, k, hk, hs => by
    have hes : sizeofT ≤ storage.length := by
      have : sizeofT ≤ (n + 1) * sizeofT := Nat.le_mul_of_pos_left _ (Nat.succ_pos n)
      omega
    have hx : (add (storage.take sizeofT) (delta.take sizeofT)).length = sizeofT := by
      rw [hadd, List.length_take]; omega
    unfold element
    simp only [accumulate]
    cases k with
    | zero =>
      rw [Nat.zero_mul, Nat.zero_add, Nat.one_mul, byteRange_append_left hx.symm]
      unfold byteRange
      simp only [List.drop_zero, Nat.sub_zero]
    | succ k =>
      have h1 : (k + 1) * sizeofT = sizeofT + k * sizeofT := by rw [Nat.succ_mul]; omega
      have h2 : (k + 1 + 1) * sizeofT = sizeofT + (k + 1) * sizeofT := by
        rw [Nat.succ_mul]; omega
      have hrec := accumulate_element sizeofT add hadd n (storage.drop sizeofT)
        (delta.drop sizeofT) k (by omega)
        (by rw [List.length_drop]; rw [Nat.succ_mul] at hs; omega)
      unfold element at hrec
      rw [byteRange_drop, byteRange_drop, ← h1, ← h2] at hrec
      rw [byteRange_append_right (by rw [hx, h1]; omega), hx, ← hrec]
      congr 1
      · rw [h1]; omega
      · rw [h2]; omega

/-! ## Whole-array requests on well-formed tables -/

/-- Two shards whose segments share a byte are the same shard. -/
theorem ArrayWorker.WF.seg_unique {sizeofT : Nat} {w : ArrayWorker} (hw : w.WF sizeofT)
    {i a k : Nat} (hi : i < w.num_server_) (ha : a < w.num_server_)
    (h1 : w.boundary i * sizeofT ≤ k ∧ k < w.boundary (i + 1) * sizeofT)
    (h2 : w.boundary a * sizeofT ≤ k ∧ k < w.boundary (a + 1) * sizeofT) : i = a := by
  rcases Nat.lt_trichotomy i a with h | h | h
  · have := Nat.mul_le_mul_right sizeofT (hw.boundary_mono (show i + 1 ≤ a by omega) (by omega))
    omega
  · exact h
  · have := Nat.mul_le_mul_right sizeofT (hw.boundary_mono (show a + 1 ≤ i by omega) (by omega))
    omega

/-- The merge of one reply `[i, val i]` for every shard `i` of `order`: the bytes
of the segment of each of these shards become those of its reply, the others
stay. -/
theorem ArrayWorker.WF.merge_family {sizeofT : Nat} {w : ArrayWorker}
    (hw : w.WF sizeofT) (hpos : 0 < sizeofT) (hmax : w.num_server_ ≤ INT_MAX)
    (val : Nat → List Byte)
    (hval : ∀ i, i < w.num_server_ →
      (val i).length = (w.boundary (i + 1) - w.boundary i) * sizeofT)
    (step : List Byte → Nat → Except Fault (List Byte))
    (hstep : ∀ i, i < w.num_server_ → ∀ buf,
      step buf i = w.ProcessReplyGet sizeofT buf [Blob.ofInt (i : Int), ⟨val i⟩]) :
    ∀ (order : List Nat) (data_ : List Byte), (∀ i ∈ order, i < w.num_server_) →
      data_.length = w.size_ * sizeofT →
      ∃ r, order.foldlM step data_ = .ok r ∧ r.length = w.size_ * sizeofT ∧
        (∀ i ∈ order, ∀ k, w.boundary i * sizeofT ≤ k → k < w.boundary (i + 1) * sizeofT →
          r[k]? = (val i)[k - w.boundary i * sizeofT]?) ∧
        (∀ k, (∀ i ∈ order,
          ¬ (w.boundary i * sizeofT ≤ k ∧ k < w.boundary (i + 1) * sizeofT)) →
          r[k]? = data_[k]?) := by
  intro order
  induction order with
  | nil =>
    intro data_ _ hd
    exact ⟨data_, rfl, hd, fun i hi => absurd hi (List.not_mem_nil i), fun _ _ => rfl⟩
  | cons a order ih =>
    intro data_ hmem hd
    have ha : a < w.num_server_ := hmem a (List.mem_cons_self _ _)
    have hhi := hw.mul_le (i := a + 1) (by omega)
    have hmm : w.boundary a * sizeofT ≤ w.boundary (a + 1) * sizeofT :=
      Nat.mul_le_mul_right _ (hw.mono a ha)
    have hlen : (val a).length = w.boundary (a + 1) * sizeofT - w.boundary a * sizeofT := by
      rw [hval a ha, Nat.sub_mul]
    have hbound : w.boundary a * sizeofT + (val a).length ≤ data_.length := by omega
    have hs := hw.ProcessReplyGet_eq hpos ha (by omega) ⟨val a⟩ (hval a ha) data_ hd
    obtain ⟨r, hr, hrl, hin, hout⟩ := ih _ (fun i hi => hmem i (List.mem_cons_of_mem _ hi))
      ((memcpy_length hbound).trans hd)
    refine ⟨r, ?_, hrl, ?_, ?_⟩
    · rw [List.foldlM_cons, hstep a ha, hs]
      exact hr
    · intro i hi k hk1 hk2
      by_cases hex : ∃ j ∈ order,
          w.boundary j * sizeofT ≤ k ∧ k < w.boundary (j + 1) * sizeofT
      · obtain ⟨j, hj, hjk⟩ := hex
        have hji : j = i := hw.seg_unique (hmem j (List.mem_cons_of_mem _ hj)) (hmem i hi)
          hjk ⟨hk1, hk2⟩
        subst hji
        exact hin j hj k hk1 hk2
      · have hia : i = a := by
          rcases List.mem_cons.1 hi with e | m
          · exact e
          · exact absurd ⟨i, m, hk1, hk2⟩ hex
        subst hia
        rw [hout k (fun j hj hjk => hex ⟨j, hj, hjk⟩), memcpy_getElem? hbound k,
          if_pos ⟨hk1, by omega⟩]
    · intro k hk
      have hka := hk a (List.mem_cons_self _ _)
      rw [hout k (fun j hj => hk j (List.mem_cons_of_mem _ hj)), memcpy_getElem? hbound k,
        if_neg (by omega)]

/-- The whole-table key `-1` passes the `CHECK` of the servers. -/
theorem checkWholeTable_neg_one : checkWholeTable (Blob.ofInt (-1)) = .ok () := by decide

/-- The method `ProcessGet` on the whole-table request on a server whose storage has
`size_` elements: the rank and the bytes of the storage. -/
theorem ArrayServer.ProcessGet_eq (sizeofT : Nat) (s : ArrayServer)
    (hlen : s.storage_.length = s.size_ * sizeofT) (hfit : s.storage_.length < SIZE_MOD) :
    s.ProcessGet sizeofT [Blob.ofInt (-1)] [] =
      .ok (s, [Blob.ofInt (s.server_id_ : Int), ⟨s.storage_⟩]) := by
  have hm : mulSizeT sizeofT s.size_ = s.storage_.length := by
    rw [mulSizeT_of_lt (by rw [Nat.mul_comm, ← hlen]; exact hfit), Nat.mul_comm, hlen]
  unfold ArrayServer.ProcessGet
  simp only [checkWholeTable_neg_one, bind, Except.bind, Blob.region, hm, Nat.zero_add,
    Nat.le_refl, if_true, List.drop_zero, List.take_length, pure, Except.pure, List.nil_append,
    List.cons_append]

/-- The method `ProcessAdd` on the whole-table key and a delta of `size_` elements: the
storage becomes the result of the `Updater`. -/
theorem ArrayServer.ProcessAdd_eq (sizeofT : Nat) (u : Updater) (s : ArrayServer)
    (values : Blob) (hv : values.size = s.size_ * sizeofT)
    (hfit : s.size_ * sizeofT < SIZE_MOD) :
    s.ProcessAdd sizeofT u [Blob.ofInt (-1), values] =
      .ok { s with storage_ := u.Update s.size_ s.storage_ values.bytes } := by
  have hm : values.size = mulSizeT s.size_ sizeofT := by rw [mulSizeT_of_lt hfit, hv]
  unfold ArrayServer.ProcessAdd
  simp only [checkWholeTable_neg_one, bind, Except.bind, CHECK, if_pos hm, pure, Except.pure]

/-- A loop over a mapped list is the loop over the list. -/
theorem foldlM_map_eq {α β γ : Type} (f : α → β) (g : γ → β → Except Fault γ) :
    ∀ (l : List α) (init : γ),
      (l.map f).foldlM g init = l.foldlM (fun c a => g c (f a)) init
  | [], _ => rfl
  | a :: l, init => by
    simp only [List.map_cons, List.foldlM_cons, bind, Except.bind]
    cases g init (f a) with
    | error e => rfl
    | ok c => exact foldlM_map_eq f g l c

/-- A whole-table `Get` on servers that hold the shards of the worker's
boundaries fills the segment of every shard with the storage of its server. -/
theorem WorkerTable.Get_spec {sizeofT : Nat} {w : ArrayWorker} (hw : w.WF sizeofT)
    (hpos : 0 < sizeofT) (hmax : w.num_server_ ≤ INT_MAX) (servers : List ArrayServer)
    (hsv : ∀ i, i < w.num_server_ → ∃ s, servers.get? i = some s ∧ s.server_id_ = i ∧
      s.size_ = w.boundary (i + 1) - w.boundary i ∧ s.storage_.length = s.size_ * sizeofT)
    (data_ : List Byte) (hd : data_.length = w.size_ * sizeofT) :
    ∃ r, WorkerTable.Get sizeofT w servers data_ (Blob.ofInt (-1)) = .ok r ∧
      r.length = w.size_ * sizeofT ∧
      ∀ i, i < w.num_server_ → ∀ k, w.boundary i * sizeofT ≤ k →
        k < w.boundary (i + 1) * sizeofT →
        r[k]? = (storageOf servers i)[k - w.boundary i * sizeofT]? := by
  have hval : ∀ i, i < w.num_server_ →
      (storageOf servers i).length = (w.boundary (i + 1) - w.boundary i) * sizeofT := by
    intro i hi
    obtain ⟨s, hs, -, hsz, hlen⟩ := hsv i hi
    unfold storageOf
    rw [hs]
    simp only [hlen, hsz]
  obtain ⟨r, hr, hrl, hin, -⟩ := hw.merge_family hpos hmax (storageOf servers) hval
    (fun (buf : List Byte) i =>
      match servers.get? i with
      | none => .error .undefined
      | some s => do
        let reply ← s.ProcessGet sizeofT [Blob.ofInt (-1)] []
        w.ProcessReplyGet sizeofT buf reply.2)
    (by
      intro i hi buf
      obtain ⟨s, hs, hid, hsz, hlen⟩ := hsv i hi
      have hle := hw.mul_le (i := i + 1) (by omega)
      have hfit := hw.fits
      have hsl : s.storage_.length ≤ w.boundary (i + 1) * sizeofT := by
        rw [hlen, hsz]
        exact Nat.mul_le_mul_right _ (Nat.sub_le _ _)
      have hso : storageOf servers i = s.storage_ := by unfold storageOf; rw [hs]
      simp only [hs, ArrayServer.ProcessGet_eq sizeofT s hlen (by omega), bind, Except.bind,
        hid, hso])
    (List.range w.num_server_) data_ (fun i hi => List.mem_range.1 hi) hd
  refine ⟨r, ?_, hrl, fun i hi k h1 h2 => hin i (List.mem_range.2 hi) k h1 h2⟩
  unfold WorkerTable.Get
  simp only [ArrayWorker.Partition_key, bind, Except.bind, foldlM_map_eq]
  exact hr

/-- A whole-table `Add` on servers that hold the shards of the worker's
boundaries: the `Updater` of every server gets the slice of its shard. -/
theorem WorkerTable.Add_spec {sizeofT : Nat} {w : ArrayWorker} (hw : w.WF sizeofT)
    (u : Updater) (servers : List ArrayServer)
    (hsv : ∀ i, i < w.num_server_ → ∃ s, servers.get? i = some s ∧ s.server_id_ = i ∧
      s.size_ = w.boundary (i + 1) - w.boundary i ∧ s.storage_.length = s.size_ * sizeofT)
    (delta : List Byte) (hd : delta.length = w.size_ * sizeofT) :
    ∃ servers', WorkerTable.Add sizeofT u w servers (Blob.ofInt (-1)) ⟨delta⟩ = .ok servers' ∧
      ∀ i, servers'.get? i =
        if i < w.num_server_ then
          (servers.get? i).map (fun s => { s with storage_ := (u.Update s.size_ s.storage_
              (byteRange delta (w.boundary i * sizeofT) (w.boundary (i + 1) * sizeofT))) })
        else servers.get? i := by
  have key : ∀ j, j ≤ w.num_server_ →
      ∃ svs, (List.range j).foldlM
          (fun (svs : List ArrayServer) i =>
            match svs.get? i with
            | none => Except.error Fault.undefined
            | some s => do
              let s ← s.ProcessAdd sizeofT u [Blob.ofInt (-1),
                ⟨byteRange delta (w.boundary i * sizeofT) (w.boundary (i + 1) * sizeofT)⟩]
              pure (svs.set i s)) servers = .ok svs ∧
        ∀ i, svs.get? i =
          if i < j then
            (servers.get? i).map (fun s => { s with storage_ := (u.Update s.size_ s.storage_
              (byteRange delta (w.boundary i * sizeofT) (w.boundary (i + 1) * sizeofT))) })
          else servers.get? i := by
    intro j
    induction j with
    | zero =>
      intro _
      exact ⟨servers, rfl, fun i => by rw [if_neg (Nat.not_lt_zero i)]⟩
    | succ j ih =>
      intro hj
      obtain ⟨svs, hfold, hget⟩ := ih (by omega)
      obtain ⟨s, hs, -, hsz, hlen⟩ := hsv j (by omega)
      have hsj : svs.get? j = some s := by rw [hget j, if_neg (Nat.lt_irrefl j), hs]
      have hjl : j < svs.length := by
        rw [List.get?_eq_getElem?] at hsj
        exact (List.getElem?_eq_some.1 hsj).1
      have hhi := hw.mul_le (i := j + 1) (by omega)
      have hmm : w.boundary j * sizeofT ≤ w.boundary (j + 1) * sizeofT :=
        Nat.mul_le_mul_right _ (hw.mono j (by omega))
      have hfit := hw.fits
      have hvs : (⟨byteRange delta (w.boundary j * sizeofT)
          (w.boundary (j + 1) * sizeofT)⟩ : Blob).size = s.size_ * sizeofT := by
        unfold Blob.size
        rw [byteRange_length (by omega), hsz, Nat.sub_mul]
      have hsfit : s.size_ * sizeofT < SIZE_MOD := by
        rw [hsz, Nat.sub_mul]; omega
      refine ⟨svs.set j { s with storage_ := (u.Update s.size_ s.storage_
              (byteRange delta (w.boundary j * sizeofT) (w.boundary (j + 1) * sizeofT))) }, ?_, ?_⟩
      · rw [List.range_succ, List.foldlM_append, hfold]
        simp only [bind, Except.bind, List.foldlM_cons, List.foldlM_nil, hsj,
          ArrayServer.ProcessAdd_eq sizeofT u s _ hvs hsfit, pure, Except.pure]
      · intro i
        rw [List.get?_eq_getElem?, List.getElem?_set]
        by_cases hij : j = i
        · subst hij
          rw [if_pos rfl, if_pos hjl, if_pos (Nat.lt_succ_self j), hs]
          rfl
        · rw [if_neg hij, ← List.get?_eq_getElem?, hget i]
          by_cases hlt : i < j
          · rw [if_pos hlt, if_pos (by omega)]
          · rw [if_neg hlt, if_neg (by omega)]
  obtain ⟨svs, hfold, hget⟩ := key w.num_server_ (Nat.le_refl _)
  refine ⟨svs, ?_, hget⟩
  unfold WorkerTable.Add
  simp only [hw.Partition_key_value (Blob.ofInt (-1)) ⟨delta⟩ hd, bind, Except.bind,
    foldlM_map_eq]
  exact hfold

/-- An element inside a window `[a, b)` of elements that agrees bytewise with a
region `st` is the corresponding element of `st`. -/
theorem element_of_pointwise {sizeofT : Nat} {r st : List Byte} {a b j : Nat}
    (ha : a ≤ j) (hb : j < b)
    (h : ∀ k, a * sizeofT ≤ k → k < b * sizeofT → r[k]? = st[k - a * sizeofT]?) :
    element sizeofT r j = element sizeofT st (j - a) := by
  have h1 : a * sizeofT ≤ j * sizeofT := Nat.mul_le_mul_right _ ha
  have h2 : (j + 1) * sizeofT ≤ b * sizeofT := Nat.mul_le_mul_right _ hb
  have h3 : (j + 1) * sizeofT = j * sizeofT + sizeofT := Nat.succ_mul j sizeofT
  have h4 : (j - a + 1) * sizeofT = (j - a) * sizeofT + sizeofT := Nat.succ_mul _ sizeofT
  have h5 : (j - a) * sizeofT = j * sizeofT - a * sizeofT := Nat.sub_mul _ _ _
  apply List.ext_getElem?
  intro k
  unfold element
  rw [byteRange_getElem?, byteRange_getElem?]
  by_cases hk : k < sizeofT
  · rw [if_pos (by omega), if_pos (by omega), h (j * sizeofT + k) (by omega) (by omega)]
    congr 1
    omega
  · rw [if_neg (by omega), if_neg (by omega)]

/-- An element of a window of elements of a region is the element of the
region. -/
theorem element_byteRange {sizeofT : Nat} (mem : List Byte) {a b j : Nat}
    (ha : a ≤ j) (hb : j < b) :
    element sizeofT (byteRange mem (a * sizeofT) (b * sizeofT)) (j - a) =
      element sizeofT mem j := by
  symm
  apply element_of_pointwise ha hb
  intro k hk1 hk2
  rw [byteRange_getElem?, if_pos (by omega)]
  congr 1
  omega

/-- Accumulate semantics inside the `int` range: for `S < N ≤ INT_MAX`, servers
in any state with the shard sizes of their ranks, the plain-accumulation
Updater and a delta of `N` elements, `Add(delta)` followed by `Get` fills the
caller buffer, element by element, with the sum of the element that a `Get`
before the `Add` returns and the element of the delta. -/
theorem ArrayWorker.add_then_get {S N sizeofT : Nat} (hS : 1 ≤ S) (hSN : S < N)
    (hN : N ≤ INT_MAX) (hpos : 0 < sizeofT) (hfit : N * sizeofT < SIZE_MOD)
    (add : List Byte → List Byte → List Byte) (hadd : ∀ x y, (add x y).length = x.length)
    (servers : List ArrayServer) (hsv : ServersWF sizeofT S N servers)
    (delta before after : List Byte) (hd : delta.length = N * sizeofT)
    (hb : before.length = N * sizeofT) (ha : after.length = N * sizeofT) :
    ∃ w previous servers' result, ArrayWorker.new S N = .ok w ∧
      w.Get sizeofT servers before N = .ok previous ∧
      w.Add sizeofT (plainUpdater sizeofT add hadd) servers delta N = .ok servers' ∧
      w.Get sizeofT servers' after N = .ok result ∧
      result.length = N * sizeofT ∧
      ∀ j, j < N →
        element sizeofT result j =
          add (element sizeofT previous j) (element sizeofT delta j) := by
  have hN0 : N ≤ 2147483647 := hN
  obtain ⟨w, hnew, hw, hsz, hnum⟩ := ArrayWorker.new_WF sizeofT hS hSN hN hfit
  have hmax : w.num_server_ ≤ INT_MAX := by rw [hnum]; unfold INT_MAX; omega
  -- the shard sizes of the servers are the segment lengths of the worker
  have hloc : ∀ i, i < S →
      ArrayServer.localSize i S N = w.boundary (i + 1) - w.boundary i := by
    intro i hi
    obtain ⟨w', hw', hl⟩ := ArrayServer.localSize_eq_segLen hS hSN hN hi
    have hww : w' = w := by
      rw [hnew] at hw'
      exact (Except.ok.inj hw').symm
    rw [hl, hww, hw.segLen_eq (by rw [hnum]; exact hi)]
  have hsv1 : ∀ i, i < w.num_server_ → ∃ s, servers.get? i = some s ∧ s.server_id_ = i ∧
      s.size_ = w.boundary (i + 1) - w.boundary i ∧
      s.storage_.length = s.size_ * sizeofT := by
    intro i hi
    rw [hnum] at hi
    have h := hsv.2 i hi
    cases hg : servers.get? i with
    | none => rw [hg] at h; exact absurd h (by simp)
    | some s =>
      rw [hg] at h
      simp only [Option.map_some', Option.some.injEq, Prod.mk.injEq] at h
      exact ⟨s, rfl, h.1, by rw [h.2.1, hloc i hi], by rw [h.2.2, h.2.1]⟩
  -- the `Get` before the `Add`
  obtain ⟨p, hp, hpl, hpk⟩ := WorkerTable.Get_spec hw hpos hmax servers hsv1 before
    (by rw [hsz]; exact hb)
  -- the `Add`
  obtain ⟨svs, hadd', hget⟩ := WorkerTable.Add_spec hw (plainUpdater sizeofT add hadd)
    servers hsv1 delta (by rw [hsz]; exact hd)
  have hsv2 : ∀ i, i < w.num_server_ → ∃ s, svs.get? i = some s ∧ s.server_id_ = i ∧
      s.size_ = w.boundary (i + 1) - w.boundary i ∧
      s.storage_.length = s.size_ * sizeofT := by
    intro i hi
    obtain ⟨s, hs, hid, hss, hsl⟩ := hsv1 i hi
    refine ⟨{ s with storage_ := ((plainUpdater sizeofT add hadd).Update s.size_ s.storage_
        (byteRange delta (w.boundary i * sizeofT) (w.boundary (i + 1) * sizeofT))) },
      by rw [hget i, if_pos hi, hs]; rfl, hid, hss, ?_⟩
    show ((plainUpdater sizeofT add hadd).Update _ _ _).length = _
    rw [(plainUpdater sizeofT add hadd).length_Update, hsl]
  -- the `Get` after the `Add`
  obtain ⟨r, hr, hrl, hrk⟩ := WorkerTable.Get_spec hw hpos hmax svs hsv2 after
    (by rw [hsz]; exact ha)
  have hregion : Blob.region delta 0 (mulSizeT sizeofT N) = .ok ⟨delta⟩ := by
    unfold Blob.region
    rw [mulSizeT_of_lt (by rw [Nat.mul_comm]; exact hfit), Nat.mul_comm, Nat.zero_add,
      if_pos (Nat.le_of_eq hd.symm), List.drop_zero, ← hd, List.take_length]
  refine ⟨w, p, svs, r, hnew, ?_, ?_, ?_, by rw [hrl, hsz], ?_⟩
  · unfold ArrayWorker.Get
    simp only [CHECK, hsz, if_true, bind, Except.bind]
    exact hp
  · unfold ArrayWorker.Add
    simp only [CHECK, hsz, if_true, bind, Except.bind, hregion]
    exact hadd'
  · unfold ArrayWorker.Get
    simp only [CHECK, hsz, if_true, bind, Except.bind]
    exact hr
  · intro j hj
    have hjk : j * sizeofT < w.size_ * sizeofT := by
      rw [hsz]; exact Nat.mul_lt_mul_of_pos_right hj hpos
    obtain ⟨i, hi, h1, h2⟩ := hw.cover hjk
    have hlo : w.boundary i ≤ j := Nat.le_of_mul_le_mul_right h1 hpos
    have hhi : j < w.boundary (i + 1) := Nat.lt_of_mul_lt_mul_right h2
    obtain ⟨s, hs, -, hss, hsl⟩ := hsv1 i hi
    have hst : storageOf servers i = s.storage_ := by unfold storageOf; rw [hs]
    have hst' : storageOf svs i = accumulate sizeofT add s.size_ s.storage_
        (byteRange delta (w.boundary i * sizeofT) (w.boundary (i + 1) * sizeofT)) := by
      unfold storageOf
      rw [hget i, if_pos hi, hs]
      rfl
    rw [element_of_pointwise hlo hhi (hrk i hi), hst',
      accumulate_element sizeofT add hadd s.size_ s.storage_ _ (j - w.boundary i)
        (by rw [hss]; omega) (Nat.le_of_eq hsl.symm),
      element_byteRange delta hlo hhi, element_of_pointwise hlo hhi (hpk i hi), hst]

/-- The sum of two integers has the size of the first. -/
theorem addLE_length (x y : List Byte) : (addLE x y).length = x.length :=
  encodeLE_length _ _

/-- The methods `Add` then `Get` for `N = 10` elements of 2 bytes on `S = 3` servers, with
little-endian integer addition. -/
theorem ArrayWorker.add_then_get_example :
    ∃ w previous servers' result, ArrayWorker.new 3 10 = .ok w ∧
      w.Get 2 [⟨0, [1, 0, 2, 0, 3, 0], 3⟩, ⟨1, [4, 0, 5, 0, 6, 0], 3⟩,
        ⟨2, [7, 0, 8, 0, 9, 0, 255, 255], 4⟩] (List.replicate 20 0) 10 = .ok previous ∧
      w.Add 2 (plainUpdater 2 addLE addLE_length)
        [⟨0, [1, 0, 2, 0, 3, 0], 3⟩, ⟨1, [4, 0, 5, 0, 6, 0], 3⟩,
          ⟨2, [7, 0, 8, 0, 9, 0, 255, 255], 4⟩] (List.replicate 20 1) 10 = .ok servers' ∧
      w.Get 2 servers' (List.replicate 20 0) 10 = .ok result ∧
      result.length = 10 * 2 ∧
      ∀ j, j < 10 →
        element 2 result j = addLE (element 2 previous j) (element 2 (List.replicate 20 1) j) :=
  ArrayWorker.add_then_get (by decide) (by decide) (by decide) (by decide) (by decide)
    addLE addLE_length _ (by unfold ServersWF; decide) _ _ _ (by decide) (by decide)
    (by decide)

/-- Partition and merge for `N = 10` elements of 2 bytes on `S = 3` servers, the
replies coming in the order `2, 0, 1`. -/
theorem ArrayWorker.partition_merge_roundtrip_example :
    ∃ w out, ArrayWorker.new 3 10 = .ok w ∧
      w.Partition 2 [Blob.ofInt (-1),
        ⟨[0, 1, 2, 3, 4, 5, 6, 7, 8, 9, 10, 11, 12, 13, 14, 15, 16, 17, 18, 19]⟩] [] =
          .ok (3, out) ∧
      w.mergeSlices 2 out [2, 0, 1] (List.replicate 20 0) =
        .ok [0, 1, 2, 3, 4, 5, 6, 7, 8, 9, 10, 11, 12, 13, 14, 15, 16, 17, 18, 19] :=
  ArrayWorker.partition_merge_roundtrip (by decide) (by decide) (by decide) (by decide)
    (by decide) _ _ (by decide) [2, 0, 1] (by decide) _ (by decide)

/-- On the worker that the constructor builds for `N = 2 ^ 31` and `S = 2`, a
whole-table `Add` of `N` elements of 4 bytes has no defined result, whatever
the servers and the `Updater`. -/
theorem ArrayWorker.Add_two_pow_31 (u : Updater) (servers : List ArrayServer)
    (data : List Byte) (hd : data.length = 2147483648 * 4) :
    (⟨2147483648, 2, [0, 18446744072635809792, 2147483648]⟩ : ArrayWorker).Add 4 u servers
      data 2147483648 = .error .undefined := by
  have hm : mulSizeT 4 2147483648 = 2147483648 * 4 := by decide
  have hregion : Blob.region data 0 (mulSizeT 4 2147483648) = .ok ⟨data⟩ := by
    unfold Blob.region
    rw [hm, Nat.zero_add, if_pos (Nat.le_of_eq hd.symm), List.drop_zero, ← hd,
      List.take_length]
  unfold ArrayWorker.Add
  simp only [CHECK, if_true, bind, Except.bind, hregion, WorkerTable.Add,
    ArrayWorker.Partition_two_pow_31 (Blob.ofInt (-1)) ⟨data⟩ hd]

/-- C7 (defect of the code, the narrowing cast of the worker's constructor): for
`N = 2 ^ 31` elements of 4 bytes on `S = 2` servers the constructor succeeds, and the worker's `Add` of a
delta of `N` elements has no defined result, whatever the servers and the
`Updater`: `Partition` cuts the slice of shard `0` with the boundaries
`[0, 2 ^ 64 - 2 ^ 30, 2 ^ 31]`, outside the delta.  No server gets its
delta, so a later `Get` does not return `previous + delta`. -/
theorem ArrayWorker.add_two_pow_31_undefined (u : Updater) (servers : List ArrayServer) :
    (ArrayWorker.new 2 2147483648).bind (fun w =>
      w.Add 4 u servers (List.replicate (2147483648 * 4) 0) 2147483648) =
      .error .undefined := by
  have hnew : ArrayWorker.new 2 2147483648 =
      .ok ⟨2147483648, 2, [0, 18446744072635809792, 2147483648]⟩ := by decide
  have hl : (List.replicate (2147483648 * 4) (0 : Byte)).length = 2147483648 * 4 :=
    List.length_replicate _ _
  rw [hnew, bind_ok]
  generalize List.replicate (2147483648 * 4) (0 : Byte) = data at hl ⊢
  exact ArrayWorker.Add_two_pow_31 u servers data hl

/-! ## The `int` arithmetic of the worker's constructor -/

/-- C20: for `S < N ≤ 2 ^ 31 - 1` the `int` arithmetic of the constructor is
exact: `static_cast<int>(size_)` is `N`, the quotient is `floor(N / S)`, every
product `i * length` lies in the `int` range and converts to the same
`size_t`; so the stored boundaries are `i * floor(N / S)` for `i < S` and `N`
at the end, they do not decrease, and every boundary is at most `N`. -/
theorem ArrayWorker.new_int_exact (S N : Nat) (hS : 1 ≤ S) (hSN : S < N) (hN : N ≤ INT_MAX) :
    castInt N = (N : Int) ∧
    (castInt N).tdiv (S : Int) = ((N / S : Nat) : Int) ∧
    (∀ i : Nat, i < S →
      0 ≤ (i : Int) * (castInt N).tdiv (S : Int) ∧
      (i : Int) * (castInt N).tdiv (S : Int) ≤ (INT_MAX : Int) ∧
      wrapInt ((i : Int) * (castInt N).tdiv (S : Int)) = (i : Int) * (castInt N).tdiv (S : Int) ∧
      toSizeT (wrapInt ((i : Int) * (castInt N).tdiv (S : Int))) = i * (N / S)) ∧
    ∃ w, ArrayWorker.new S N = .ok w ∧
      w.server_offsets_.length = S + 1 ∧
      (∀ i, i < S → w.boundary i = i * (N / S)) ∧
      w.boundary S = N ∧
      (∀ i, i < S → w.boundary i ≤ w.boundary (i + 1)) ∧
      (∀ i, i ≤ S → w.boundary i ≤ N) := by
  have hN0 : N ≤ 2147483647 := hN
  have hc : castInt N = (N : Int) := castInt_of_le hN
  have hq : (castInt N).tdiv (S : Int) = ((N / S : Nat) : Int) := by
    rw [hc]; exact (Int.ofNat_tdiv N S).symm
  refine ⟨hc, hq, ?_, _, ArrayWorker.new_eq_exact hS hSN hN, exactOffsets_length S N,
    ?_, exactOffsets_getD_last S N, ?_, ?_⟩
  · intro i hi
    have hle : i * (N / S) ≤ N := mul_div_le_of_lt hi
    have hcast : (i : Int) * ((N / S : Nat) : Int) = ((i * (N / S) : Nat) : Int) := by
      push_cast; rfl
    have hmax : i * (N / S) ≤ INT_MAX := by unfold INT_MAX; omega
    rw [hq, hcast]
    refine ⟨Int.ofNat_nonneg _, by exact_mod_cast hmax, wrapInt_natCast hmax, ?_⟩
    rw [wrapInt_natCast hmax, toSizeT_natCast (by unfold SIZE_MOD; omega)]
  · intro i hi
    exact exactOffsets_getD_lt hi
  · intro i hi
    show (exactOffsets S N).getD i 0 ≤ (exactOffsets S N).getD (i + 1) 0
    rw [exactOffsets_getD_lt hi, exactOffsets_getD_succ hi]
    by_cases h : i + 1 = S
    · rw [if_pos h]; exact mul_div_le_of_lt hi
    · rw [if_neg h]; exact Nat.mul_le_mul_right _ (Nat.le_add_right i 1)
  · intro i hi
    show (exactOffsets S N).getD i 0 ≤ N
    by_cases h : i = S
    · rw [h, exactOffsets_getD_last]
    · rw [exactOffsets_getD_lt (by omega)]
      exact mul_div_le_of_lt (by omega)

/-- The constructor for `N = 10` and `S = 3`: the `int` arithmetic is exact and
the boundaries are `0, 3, 6, 10`. -/
theorem ArrayWorker.new_int_exact_witness :
    castInt 10 = ((10 : Nat) : Int) ∧
    (castInt 10).tdiv ((3 : Nat) : Int) = ((10 / 3 : Nat) : Int) ∧
    (∀ i : Nat, i < 3 →
      0 ≤ (i : Int) * (castInt 10).tdiv ((3 : Nat) : Int) ∧
      (i : Int) * (castInt 10).tdiv ((3 : Nat) : Int) ≤ (INT_MAX : Int) ∧
      wrapInt ((i : Int) * (castInt 10).tdiv ((3 : Nat) : Int)) =
        (i : Int) * (castInt 10).tdiv ((3 : Nat) : Int) ∧
      toSizeT (wrapInt ((i : Int) * (castInt 10).tdiv ((3 : Nat) : Int))) = i * (10 / 3)) ∧
    ∃ w, ArrayWorker.new 3 10 = .ok w ∧
      w.server_offsets_.length = 3 + 1 ∧
      (∀ i, i < 3 → w.boundary i = i * (10 / 3)) ∧
      w.boundary 3 = 10 ∧
      (∀ i, i < 3 → w.boundary i ≤ w.boundary (i + 1)) ∧
      (∀ i, i ≤ 3 → w.boundary i ≤ 10) :=
  ArrayWorker.new_int_exact 3 10 (by decide) (by decide) (by decide)

/-! ## The shards of the servers -/

/-- The local lengths of the servers below the last rank sum to `j * floor(N / S)`. -/
theorem ArrayServer.sum_localSize_lt (S N : Nat) :
    ∀ j, j < S → ((List.range j).map (fun r => ArrayServer.localSize r S N)).sum = j * (N / S) := by
  intro j
  induction j with
  | zero => intro _; simp
  | succ j ih =>
    intro hj
    have hne : ¬ ((j : Int) = (S : Int) - 1) := by omega
    rw [List.range_succ, List.map_append, List.sum_append, ih (by omega)]
    simp only [List.map_cons, List.map_nil, List.sum_cons, List.sum_nil, Nat.add_zero,
      ArrayServer.localSize, if_neg hne]
    rw [Nat.succ_mul]

/-- C17: for a table of `N` elements on `S ≥ 1` servers the constructor of every
rank `r < S` succeeds with the local length `localSize r S N`, and these
lengths sum to `N` over the ranks `0 .. S-1`. -/
theorem ArrayServer.sum_localSize (sizeofT S N : Nat) (hS : 1 ≤ S) (hN : N < SIZE_MOD) :
    (∀ r, r < S → ∃ s, ArrayServer.new sizeofT r S N = .ok s ∧
      s.size_ = ArrayServer.localSize r S N) ∧
    ((List.range S).map (fun r => ArrayServer.localSize r S N)).sum = N := by
  constructor
  · intro r _
    refine ⟨⟨r, List.replicate (ArrayServer.localSize r S N * sizeofT) 0,
      ArrayServer.localSize r S N⟩, ?_, rfl⟩
    unfold ArrayServer.new
    rw [if_neg (by omega)]
  · obtain ⟨k, rfl⟩ : ∃ k, S = k + 1 := ⟨S - 1, by omega⟩
    have hlast : ((k : Int) = ((k + 1 : Nat) : Int) - 1) := by omega
    have hdm : (k + 1) * (N / (k + 1)) + N % (k + 1) = N := Nat.div_add_mod N (k + 1)
    have hle : N / (k + 1) ≤ (k + 1) * (N / (k + 1)) := Nat.le_mul_of_pos_left _ (by omega)
    rw [List.range_succ, List.map_append, List.sum_append,
      ArrayServer.sum_localSize_lt (k + 1) N k (by omega)]
    simp only [List.map_cons, List.map_nil, List.sum_cons, List.sum_nil, Nat.add_zero,
      ArrayServer.localSize, if_pos hlast]
    rw [addSizeT_of_lt (by omega)]
    rw [Nat.succ_mul] at hdm
    omega

/-- The shard lengths for `N = 10` on `S = 3` servers sum to `10`. -/
theorem ArrayServer.sum_localSize_witness :
    (∀ r, r < 3 → ∃ s, ArrayServer.new 4 r 3 10 = .ok s ∧
      s.size_ = ArrayServer.localSize r 3 10) ∧
    ((List.range 3).map (fun r => ArrayServer.localSize r 3 10)).sum = 10 :=
  ArrayServer.sum_localSize 4 3 10 (by decide) (by decide)

/-! ## Requests to a server -/

/-- The `CHECK` of the servers passes exactly on a whole-table key. -/
theorem checkWholeTable_eq (keys : Blob) :
    checkWholeTable keys = if wholeTableKey keys then .ok () else .error .checkFailed := by
  unfold checkWholeTable wholeTableKey
  by_cases h1 : keys.sizeAs 4 = 1
  · have h4 : 4 ≤ keys.size := by
      unfold Blob.sizeAs at h1
      omega
    simp only [Blob.asInt, if_pos h4, bind, Except.bind, CHECK, h1, true_and,
      Except.ok.injEq, if_true]
  · rw [if_neg h1, if_neg (fun h => h1 h.1)]

/-- C11: on a request `[keys, values, ...]`, `ProcessAdd` succeeds exactly when
the key Blob holds exactly one `int` equal to `-1` and the value Blob has
`L * sizeof(T)` bytes; then the storage is the result of
`Update(L, storage, delta)` and keeps its `L * sizeof(T)` bytes, and the
other members stay; otherwise a `CHECK` aborts and no table comes back. -/
theorem ArrayServer.ProcessAdd_spec (sizeofT : Nat) (u : Updater) (s : ArrayServer)
    (keys values : Blob) (rest : List Blob)
    (hlen : s.storage_.length = s.size_ * sizeofT) (hfit : s.size_ * sizeofT < SIZE_MOD) :
    ((∃ s', s.ProcessAdd sizeofT u (keys :: values :: rest) = .ok s') ↔
      (wholeTableKey keys ∧ values.size = s.size_ * sizeofT)) ∧
    (wholeTableKey keys ∧ values.size = s.size_ * sizeofT →
      s.ProcessAdd sizeofT u (keys :: values :: rest) =
        .ok { s with storage_ := u.Update s.size_ s.storage_ values.bytes } ∧
      (u.Update s.size_ s.storage_ values.bytes).length = s.size_ * sizeofT) ∧
    (¬ (wholeTableKey keys ∧ values.size = s.size_ * sizeofT) →
      s.ProcessAdd sizeofT u (keys :: values :: rest) = .error .checkFailed) := by
  have hm : mulSizeT s.size_ sizeofT = s.size_ * sizeofT := mulSizeT_of_lt hfit
  have hok : wholeTableKey keys ∧ values.size = s.size_ * sizeofT →
      s.ProcessAdd sizeofT u (keys :: values :: rest) =
        .ok { s with storage_ := u.Update s.size_ s.storage_ values.bytes } := by
    intro h
    unfold ArrayServer.ProcessAdd
    simp only [checkWholeTable_eq, if_pos h.1, bind, Except.bind, CHECK, hm, if_pos h.2, pure,
      Except.pure]
  have hbad : ¬ (wholeTableKey keys ∧ values.size = s.size_ * sizeofT) →
      s.ProcessAdd sizeofT u (keys :: values :: rest) = .error .checkFailed := by
    intro h
    unfold ArrayServer.ProcessAdd
    by_cases hk : wholeTableKey keys
    · have hv : ¬ values.size = s.size_ * sizeofT := fun hv => h ⟨hk, hv⟩
      simp only [checkWholeTable_eq, if_pos hk, bind, Except.bind, CHECK, hm, if_neg hv]
    · simp only [checkWholeTable_eq, if_neg hk, bind, Except.bind]
  refine ⟨⟨?_, fun h => ⟨_, hok h⟩⟩, fun h => ⟨hok h, ?_⟩, hbad⟩
  · rintro ⟨s', hs'⟩
    by_contra h
    rw [hbad h] at hs'
    exact absurd hs' (by simp)
  · rw [u.length_Update, hlen]

/-- The rank stored in the key Blob of a reply is read back. -/
theorem Blob.ofInt_natCast_size (n : Nat) : (Blob.ofInt (n : Int)).size = 4 := by
  unfold Blob.ofInt Blob.size
  exact encodeLE_length 4 _

/-- C12: on a request whose key Blob holds exactly one `int` equal to `-1`,
`ProcessGet` with an empty result list produces exactly two Blobs: an `int`
Blob that holds the rank of the server, and a Blob of `L * sizeof(T)` bytes
that are the bytes of the storage; the table stays as it is.  On a request
with another key a `CHECK` aborts. -/
theorem ArrayServer.ProcessGet_spec (sizeofT : Nat) (s : ArrayServer) (keys : Blob)
    (rest : List Blob) (hlen : s.storage_.length = s.size_ * sizeofT)
    (hfit : s.size_ * sizeofT < SIZE_MOD) (hid : s.server_id_ ≤ INT_MAX) :
    (wholeTableKey keys →
      ∃ key value, s.ProcessGet sizeofT (keys :: rest) [] = .ok (s, [key, value]) ∧
        key.size = 4 ∧ key.sizeAs 4 = 1 ∧ key.asInt = .ok (s.server_id_ : Int) ∧
        value.size = s.size_ * sizeofT ∧ value.bytes = s.storage_) ∧
    (¬ wholeTableKey keys →
      s.ProcessGet sizeofT (keys :: rest) [] = .error .checkFailed) := by
  have hm : mulSizeT sizeofT s.size_ = s.storage_.length := by
    rw [mulSizeT_of_lt (by rw [Nat.mul_comm]; exact hfit), Nat.mul_comm, hlen]
  constructor
  · intro hk
    refine ⟨Blob.ofInt (s.server_id_ : Int), ⟨s.storage_⟩, ?_, Blob.ofInt_natCast_size _, ?_,
      Blob.asInt_ofInt_natCast hid, hlen, rfl⟩
    · unfold ArrayServer.ProcessGet
      simp only [checkWholeTable_eq, if_pos hk, bind, Except.bind, Blob.region, hm, Nat.zero_add,
        Nat.le_refl, if_true, List.drop_zero, List.take_length, pure, Except.pure,
        List.nil_append, List.cons_append]
    · unfold Blob.sizeAs
      rw [Blob.ofInt_natCast_size]
  · intro hk
    unfold ArrayServer.ProcessGet
    simp only [checkWholeTable_eq, if_neg hk, bind, Except.bind]

/-- A byte range of a region of equal bytes. -/
theorem byteRange_replicate (n lo hi : Nat) (b : Byte) (h : hi ≤ n) :
    byteRange (List.replicate n b) lo hi = List.replicate (hi - lo) b := by
  unfold byteRange
  rw [List.drop_replicate, List.take_replicate]
  congr 1
  omega

/-- C16: a freshly constructed server holds zero-initialised storage: on a
whole-table request `ProcessGet` returns a value Blob of `L` elements
(`L * sizeof(T)` bytes) that are all zero. -/
theorem ArrayServer.new_ProcessGet_zero (sizeofT S N r : Nat) (keys : Blob) (rest : List Blob)
    (hS : 1 ≤ S) (hfit : ArrayServer.localSize r S N * sizeofT < SIZE_MOD)
    (hk : wholeTableKey keys) :
    ∃ s key value, ArrayServer.new sizeofT r S N = .ok s ∧
      s.size_ = ArrayServer.localSize r S N ∧
      s.ProcessGet sizeofT (keys :: rest) [] = .ok (s, [key, value]) ∧
      value.size = s.size_ * sizeofT ∧
      (0 < sizeofT → value.sizeAs sizeofT = s.size_) ∧
      (∀ b ∈ value.bytes, b = 0) ∧
      (∀ j, j < s.size_ → element sizeofT value.bytes j = List.replicate sizeofT 0) := by
  have hm : mulSizeT sizeofT (ArrayServer.localSize r S N) =
      ArrayServer.localSize r S N * sizeofT := by
    rw [mulSizeT_of_lt (by rw [Nat.mul_comm]; exact hfit), Nat.mul_comm]
  refine ⟨⟨r, List.replicate (ArrayServer.localSize r S N * sizeofT) 0,
    ArrayServer.localSize r S N⟩, Blob.ofInt (r : Int),
    ⟨List.replicate (ArrayServer.localSize r S N * sizeofT) 0⟩, ?_, rfl, ?_, ?_, ?_, ?_, ?_⟩
  · unfold ArrayServer.new
    rw [if_neg (by omega)]
  · unfold ArrayServer.ProcessGet
    simp only [checkWholeTable_eq, if_pos hk, bind, Except.bind, Blob.region, hm, Nat.zero_add,
      List.length_replicate, Nat.le_refl, if_true, List.drop_zero, List.take_replicate,
      Nat.min_self, pure, Except.pure, List.nil_append, List.cons_append]
  · exact List.length_replicate _ _
  · intro hpos
    unfold Blob.sizeAs Blob.size
    simp only [List.length_replicate, Nat.mul_div_cancel _ hpos]
  · intro b hb
    exact List.eq_of_mem_replicate hb
  · intro j hj
    have hj' : j < ArrayServer.localSize r S N := hj
    unfold element
    rw [byteRange_replicate _ _ _ _ (Nat.mul_le_mul_right _ (by omega)), Nat.succ_mul,
      Nat.add_sub_cancel_left]

/-- C18: with at least one server the constructor of the worker succeeds
exactly when `N > S`, and otherwise its `CHECK` aborts; on the worker it
builds, `Get` and `Add` with `size != N` abort at their first `CHECK`, before
anything is partitioned or sent, whatever the servers. -/
theorem ArrayWorker.size_guards (S N : Nat) (hS : 1 ≤ S) :
    ((∃ w, ArrayWorker.new S N = .ok w) ↔ S < N) ∧
    (¬ S < N → ArrayWorker.new S N = .error .checkFailed) ∧
    (∀ w, ArrayWorker.new S N = .ok w → w.size_ = N ∧
      ∀ (sizeofT : Nat) (u : Updater) (servers : List ArrayServer) (data : List Byte)
        (size : Nat), size ≠ N →
        w.Get sizeofT servers data size = .error .checkFailed ∧
        w.Add sizeofT u servers data size = .error .checkFailed) := by
  have hbad : ¬ S < N → ArrayWorker.new S N = .error .checkFailed := by
    intro h
    unfold ArrayWorker.new
    rw [if_pos (by omega)]
  have hgood : S < N → ArrayWorker.new S N = .ok
      { size_ := N, num_server_ := S,
        server_offsets_ := ArrayWorker.pushOffsets S ((castInt N).tdiv (S : Int)) [0] ++ [N] } := by
    intro h
    unfold ArrayWorker.new
    rw [if_neg (by omega), if_neg (by omega)]
  refine ⟨⟨?_, fun h => ⟨_, hgood h⟩⟩, hbad, ?_⟩
  · rintro ⟨w, hw⟩
    by_contra h
    rw [hbad h] at hw
    exact absurd hw (by simp)
  · intro w hw
    have hlt : S < N := by
      by_contra h
      rw [hbad h] at hw
      exact absurd hw (by simp)
    rw [hgood hlt] at hw
    have hsz : w.size_ = N := by
      rw [← Except.ok.inj hw]
    refine ⟨hsz, ?_⟩
    intro sizeofT u servers data size hne
    have hne' : ¬ size = w.size_ := by rw [hsz]; exact hne
    constructor
    · unfold ArrayWorker.Get
      simp only [CHECK, if_neg hne', bind, Except.bind]
    · unfold ArrayWorker.Add
      simp only [CHECK, if_neg hne', bind, Except.bind]

/-- The request `[-1, eight bytes]` to the last server of a table of `N = 10`
elements of 2 bytes on `S = 3` servers. -/
theorem ArrayServer.ProcessAdd_spec_witness :
    (⟨2, [1, 2, 3, 4, 5, 6, 7, 8], 4⟩ : ArrayServer).storage_.length = 4 * 2 ∧
    4 * 2 < SIZE_MOD ∧
    ((∃ s', (⟨2, [1, 2, 3, 4, 5, 6, 7, 8], 4⟩ : ArrayServer).ProcessAdd 2
        (plainUpdater 2 addLE addLE_length) [Blob.ofInt (-1), ⟨List.replicate 8 1⟩] =
          .ok s') ↔
      (wholeTableKey (Blob.ofInt (-1)) ∧ (⟨List.replicate 8 1⟩ : Blob).size = 4 * 2)) ∧
    (wholeTableKey (Blob.ofInt (-1)) ∧ (⟨List.replicate 8 1⟩ : Blob).size = 4 * 2) ∧
    ((⟨2, [1, 2, 3, 4, 5, 6, 7, 8], 4⟩ : ArrayServer).ProcessAdd 2
        (plainUpdater 2 addLE addLE_length) [Blob.ofInt (-1), ⟨List.replicate 8 1⟩] =
      .ok { (⟨2, [1, 2, 3, 4, 5, 6, 7, 8], 4⟩ : ArrayServer) with
        storage_ := ((plainUpdater 2 addLE addLE_length).Update 4 [1, 2, 3, 4, 5, 6, 7, 8]
          (List.replicate 8 1)) } ∧
      ((plainUpdater 2 addLE addLE_length).Update 4 [1, 2, 3, 4, 5, 6, 7, 8]
        (List.replicate 8 1)).length = 4 * 2) :=
  ⟨by decide, by decide,
    (ArrayServer.ProcessAdd_spec 2 (plainUpdater 2 addLE addLE_length)
      ⟨2, [1, 2, 3, 4, 5, 6, 7, 8], 4⟩ (Blob.ofInt (-1)) ⟨List.replicate 8 1⟩ []
      (by decide) (by decide)).1,
    by decide,
    (ArrayServer.ProcessAdd_spec 2 (plainUpdater 2 addLE addLE_length)
      ⟨2, [1, 2, 3, 4, 5, 6, 7, 8], 4⟩ (Blob.ofInt (-1)) ⟨List.replicate 8 1⟩ []
      (by decide) (by decide)).2.1 (by decide)⟩

/-- The whole-table request to the last server of a table of `N = 10` elements
of 2 bytes on `S = 3` servers. -/
theorem ArrayServer.ProcessGet_spec_witness :
    (⟨2, [1, 2, 3, 4, 5, 6, 7, 8], 4⟩ : ArrayServer).storage_.length = 4 * 2 ∧
    4 * 2 < SIZE_MOD ∧ 2 ≤ INT_MAX ∧ wholeTableKey (Blob.ofInt (-1)) ∧
    ∃ key value, (⟨2, [1, 2, 3, 4, 5, 6, 7, 8], 4⟩ : ArrayServer).ProcessGet 2
        [Blob.ofInt (-1)] [] = .ok (⟨2, [1, 2, 3, 4, 5, 6, 7, 8], 4⟩, [key, value]) ∧
      key.size = 4 ∧ key.sizeAs 4 = 1 ∧ key.asInt = .ok ((2 : Nat) : Int) ∧
      value.size = 4 * 2 ∧ value.bytes = [1, 2, 3, 4, 5, 6, 7, 8] :=
  ⟨by decide, by decide, by decide, by decide,
    (ArrayServer.ProcessGet_spec 2 ⟨2, [1, 2, 3, 4, 5, 6, 7, 8], 4⟩ (Blob.ofInt (-1)) []
      (by decide) (by decide) (by decide)).1 (by decide)⟩

/-- The fresh last server of a table of `N = 10` elements of 4 bytes on `S = 3`
servers answers with 16 zero bytes. -/
theorem ArrayServer.new_ProcessGet_zero_witness :
    ArrayServer.localSize 2 3 10 * 4 < SIZE_MOD ∧ wholeTableKey (Blob.ofInt (-1)) ∧
    ∃ s key value, ArrayServer.new 4 2 3 10 = .ok s ∧
      s.size_ = ArrayServer.localSize 2 3 10 ∧
      s.ProcessGet 4 [Blob.ofInt (-1)] [] = .ok (s, [key, value]) ∧
      value.size = s.size_ * 4 ∧
      (0 < 4 → value.sizeAs 4 = s.size_) ∧
      (∀ b ∈ value.bytes, b = 0) ∧
      (∀ j, j < s.size_ → element 4 value.bytes j = List.replicate 4 0) :=
  ⟨by decide, by decide,
    ArrayServer.new_ProcessGet_zero 4 3 10 2 (Blob.ofInt (-1)) [] (by decide) (by decide)
      (by decide)⟩

/-- The constructor for `N = 10`, `S = 3` succeeds, and `Get` and `Add` of 9
elements abort. -/
theorem ArrayWorker.size_guards_witness :
    ((∃ w, ArrayWorker.new 3 10 = .ok w) ↔ 3 < 10) ∧
    ArrayWorker.new 3 10 = .ok ⟨10, 3, [0, 3, 6, 10]⟩ ∧
    (⟨10, 3, [0, 3, 6, 10]⟩ : ArrayWorker).Get 2 [] (List.replicate 18 0) 9 =
      .error .checkFailed ∧
    (⟨10, 3, [0, 3, 6, 10]⟩ : ArrayWorker).Add 2 (plainUpdater 2 addLE addLE_length) []
      (List.replicate 18 0) 9 = .error .checkFailed :=
  ⟨(ArrayWorker.size_guards 3 10 (by decide)).1, by decide,
    (((ArrayWorker.size_guards 3 10 (by decide)).2.2 ⟨10, 3, [0, 3, 6, 10]⟩ (by decide)).2
      2 (plainUpdater 2 addLE addLE_length) [] (List.replicate 18 0) 9 (by decide)).1,
    (((ArrayWorker.size_guards 3 10 (by decide)).2.2 ⟨10, 3, [0, 3, 6, 10]⟩ (by decide)).2
      2 (plainUpdater 2 addLE addLE_length) [] (List.replicate 18 0) 9 (by decide)).2⟩

/-! ## The total that Send returns -/

/-- The total that the loop of `Send` returns: the running total plus, for each
Blob, its byte length and the 8 bytes of the length frame, as a `size_t`. -/
theorem ZMQNetWrapper.sendBlobs_size (n : Nat) :
    ∀ (blobs : List Blob) (i : Nat) (socket : Option Socket) (size : Nat)
      (sock : Option Socket) (sz : Nat), size < SIZE_MOD →
      ZMQNetWrapper.sendBlobs n i blobs socket size = .ok (sock, sz) →
      sz = (size + (blobs.map (fun b => 8 + b.size)).sum) % SIZE_MOD
  | [], i, socket, size, sock, sz, hsize, h => by
    simp only [ZMQNetWrapper.sendBlobs, Except.ok.injEq, Prod.mk.injEq] at h
    rw [← h.2]
    simp only [List.map_nil, List.sum_nil, Nat.add_zero]
    exact (Nat.mod_eq_of_lt hsize).symm
  | b :: rest, i, socket, size, sock, sz, hsize, h => by
    rw [ZMQNetWrapper.sendBlobs] at h
    obtain ⟨⟨s1, r1⟩, -, h⟩ := bind_eq_ok h
    obtain ⟨_, -, h⟩ := bind_eq_ok h
    obtain ⟨⟨s2, r2⟩, -, h⟩ := bind_eq_ok h
    obtain ⟨_, -, h⟩ := bind_eq_ok h
    have hrec := ZMQNetWrapper.sendBlobs_size n rest (i + 1) s2
      (addSizeT size (addSizeT b.size 8)) sock sz (Nat.mod_lt _ (by unfold SIZE_MOD; omega)) h
    rw [hrec]
    simp only [List.map_cons, List.sum_cons, addSizeT]
    unfold SIZE_MOD
    omega

/-- The value `Send` returns when it succeeds, as a `size_t`. -/
theorem ZMQNetWrapper.sendOn_size (kHeaderSize : Nat) (socket : Option Socket) (msg : Message)
    (sock : Option Socket) (sz : Nat)
    (h : ZMQNetWrapper.sendOn kHeaderSize socket msg = .ok (sock, sz)) :
    sz = (kHeaderSize + (msg.data.map (fun b => 8 + b.size)).sum) % SIZE_MOD := by
  unfold ZMQNetWrapper.sendOn at h
  obtain ⟨⟨s1, r1⟩, -, h⟩ := bind_eq_ok h
  obtain ⟨_, hc, h⟩ := bind_eq_ok h
  have hk : (kHeaderSize : Int) = r1 := CHECK_eq_ok hc
  have hrec := ZMQNetWrapper.sendBlobs_size msg.data.length msg.data 0 s1
    (addSizeT 0 (toSizeT r1)) sock sz (Nat.mod_lt _ (by unfold SIZE_MOD; omega)) h
  rw [hrec, ← hk]
  simp only [addSizeT, toSizeT]
  unfold SIZE_MOD
  omega

/-- A call of `zmq_send` that returns: on a null endpoint `-1`, else one frame
of `len` bytes is written and `min len INT_MAX` is returned. -/
theorem zmq_send_eq_ok {socket sock : Option Socket} {buf : List Byte} {len : Nat}
    {flag : Bool} {r : Int} (h : zmq_send socket buf len flag = .ok (sock, r)) :
    (socket = none ∧ r = -1) ∨
    ∃ s, socket = some s ∧ len ≤ buf.length ∧
      sock = some { s with frames := s.frames ++ [⟨buf.take len, flag⟩] } ∧
      r = ((min len INT_MAX : Nat) : Int) := by
  unfold zmq_send at h
  cases socket with
  | none =>
    simp only [Except.ok.injEq, Prod.mk.injEq] at h
    exact Or.inl ⟨rfl, h.2.symm⟩
  | some s =>
    right
    by_cases hl : len ≤ buf.length
    · simp only [if_pos hl, Except.ok.injEq, Prod.mk.injEq] at h
      exact ⟨s, rfl, hl, h.1.symm, h.2.symm⟩
    · simp only [if_neg hl] at h
      exact absurd h (by simp)

/-- The frames that the loop of `Send` writes when it succeeds hold, together,
8 bytes and the bytes of the Blob for each Blob. -/
theorem ZMQNetWrapper.sendBlobs_written (n : Nat) :
    ∀ (blobs : List Blob) (i : Nat) (s : Socket) (size : Nat)
      (sock : Option Socket) (sz : Nat),
      ZMQNetWrapper.sendBlobs n i blobs (some s) size = .ok (sock, sz) →
      ∃ fs : List Frame, sock = some { s with frames := s.frames ++ fs } ∧
        (fs.map (fun f => f.payload.length)).sum = (blobs.map (fun b => 8 + b.size)).sum
  | [], i, s, size, sock, sz, h => by
    simp only [ZMQNetWrapper.sendBlobs, Except.ok.injEq, Prod.mk.injEq] at h
    exact ⟨[], by simp [← h.1], rfl⟩
  | b :: rest, i, s, size, sock, sz, h => by
    rw [ZMQNetWrapper.sendBlobs] at h
    obtain ⟨⟨s1, r1⟩, h1, h⟩ := bind_eq_ok h
    obtain ⟨_, -, h⟩ := bind_eq_ok h
    obtain ⟨⟨s2, r2⟩, h2, h⟩ := bind_eq_ok h
    obtain ⟨_, hc, h⟩ := bind_eq_ok h
    have hc2 : toSizeT r2 = b.size := CHECK_eq_ok hc
    rcases zmq_send_eq_ok h1 with ⟨hn, -⟩ | ⟨t, ht, hl1, hs1, -⟩
    · exact absurd hn (by simp)
    · simp only [Option.some.injEq] at ht
      subst ht
      subst hs1
      rcases zmq_send_eq_ok h2 with ⟨hn, -⟩ | ⟨t2, ht2, hl2, hs2, hr2⟩
      · exact absurd hn (by simp)
      · simp only [Option.some.injEq] at ht2
        subst ht2
        subst hs2
        have hmin : min (toSizeT (castInt b.size)) INT_MAX < SIZE_MOD :=
          Nat.lt_of_le_of_lt (Nat.min_le_right _ _) (by decide)
        rw [hr2, toSizeT_natCast hmin] at hc2
        have hlen : b.bytes.length = b.size := rfl
        have hge : b.size ≤ toSizeT (castInt b.size) := by
          generalize toSizeT (castInt b.size) = len at hc2 ⊢
          omega
        have htake : (b.bytes.take (toSizeT (castInt b.size))).length = b.size := by
          rw [List.length_take, hlen]
          omega
        obtain ⟨fs, hfs, hsum⟩ := ZMQNetWrapper.sendBlobs_written n rest (i + 1) _ _ sock sz h
        refine ⟨⟨(encodeLE 8 b.size).take 8, true⟩ ::
          ⟨b.bytes.take (toSizeT (castInt b.size)), if i = subSizeT n 1 then false else true⟩ ::
          fs, ?_, ?_⟩
        · rw [hfs]
          simp
        · simp only [List.map_cons, List.sum_cons, hsum, htake, List.length_take,
            encodeLE_length]
          omega

/-- The frames that `Send` writes on an endpoint when it succeeds hold, together,
`kHeaderSize` bytes, and 8 bytes and the bytes of the Blob for each Blob. -/
theorem ZMQNetWrapper.sendOn_written (kHeaderSize : Nat) (socket : Option Socket)
    (msg : Message) (sock : Option Socket) (sz : Nat)
    (h : ZMQNetWrapper.sendOn kHeaderSize socket msg = .ok (sock, sz)) :
    ∃ (s : Socket) (fs : List Frame), socket = some s ∧
      sock = some { s with frames := s.frames ++ fs } ∧
      (fs.map (fun f => f.payload.length)).sum =
        kHeaderSize + (msg.data.map (fun b => 8 + b.size)).sum := by
  unfold ZMQNetWrapper.sendOn at h
  obtain ⟨⟨s1, r1⟩, h1, h⟩ := bind_eq_ok h
  obtain ⟨_, hc, h⟩ := bind_eq_ok h
  have hk : (kHeaderSize : Int) = r1 := CHECK_eq_ok hc
  rcases zmq_send_eq_ok h1 with ⟨-, hr⟩ | ⟨s, hs, hl, hs1, -⟩
  · rw [hr] at hk
    omega
  · subst hs1
    obtain ⟨fs, hfs, hsum⟩ := ZMQNetWrapper.sendBlobs_written msg.data.length msg.data 0 _ _
      sock sz h
    refine ⟨s, ⟨msg.header.take kHeaderSize, true⟩ :: fs, hs, ?_, ?_⟩
    · rw [hfs]
      simp
    · simp only [List.map_cons, List.sum_cons, hsum, List.length_take]
      omega

/-- C14: whenever `Send` succeeds, the `size_t` it returns is
`kHeaderSize + Σ (sizeof(size_t) + byte length of the blob)` over the blobs of
the message, in the arithmetic of `size_t`; when that total is a `size_t`
(below `2^64`) the returned value is the total itself.  That total is the
number of bytes in the frames that the call has appended to the endpoint
`requester_[dst]`. -/
theorem ZMQNetWrapper.Send_returns_total (kHeaderSize dst : Nat) (net net' : ZMQNetWrapper)
    (msg : Message) (sz : Nat)
    (h : ZMQNetWrapper.Send kHeaderSize dst net msg = .ok (net', sz)) :
    sz = (kHeaderSize + (msg.data.map (fun b => 8 + b.size)).sum) % SIZE_MOD ∧
    (kHeaderSize + (msg.data.map (fun b => 8 + b.size)).sum < SIZE_MOD →
      sz = kHeaderSize + (msg.data.map (fun b => 8 + b.size)).sum) ∧
    ∃ (s : Socket) (fs : List Frame), net.requester_.get? dst = some (some s) ∧
      net'.requester_.get? dst = some (some { s with frames := s.frames ++ fs }) ∧
      (fs.map (fun f => f.payload.length)).sum =
        kHeaderSize + (msg.data.map (fun b => 8 + b.size)).sum := by
  unfold ZMQNetWrapper.Send at h
  cases hs : net.requester_.get? dst with
  | none =>
    rw [hs] at h
    exact absurd h (by simp)
  | some socket =>
    rw [hs] at h
    obtain ⟨⟨sock, sz'⟩, hon, h⟩ := bind_eq_ok h
    simp only [pure, Except.pure, Except.ok.injEq, Prod.mk.injEq] at h
    have key := ZMQNetWrapper.sendOn_size kHeaderSize socket msg sock sz' hon
    rw [h.2] at key
    obtain ⟨s, fs, hsock, hsock', hsum⟩ :=
      ZMQNetWrapper.sendOn_written kHeaderSize socket msg sock sz' hon
    refine ⟨key, fun hlt => by rw [key, Nat.mod_eq_of_lt hlt], s, fs, by rw [hsock], ?_, hsum⟩
    rw [← h.1, ← hsock']
    rw [List.get?_eq_getElem?] at hs ⊢
    have hd : dst < net.requester_.length := by
      by_contra hnot
      rw [List.getElem?_eq_none (by omega)] at hs
      exact absurd hs (by simp)
    simp [List.getElem?_set_self hd]

/-- A message with a header of 4 bytes and blobs of 3, 0 and 1 bytes: `Send`
returns `4 + (8 + 3) + (8 + 0) + (8 + 1) = 32`. -/
theorem ZMQNetWrapper.Send_returns_total_witness :
    ZMQNetWrapper.Send 4 0 ⟨⟨[], false⟩, [some ⟨[], false⟩], 1, 2⟩
        ⟨[1, 2, 3, 4], [⟨[9, 8, 7]⟩, ⟨[]⟩, ⟨[5]⟩]⟩ =
      .ok (⟨⟨[], false⟩, [some ⟨[⟨[1, 2, 3, 4], true⟩,
          ⟨encodeLE 8 3, true⟩, ⟨[9, 8, 7], true⟩,
          ⟨encodeLE 8 0, true⟩, ⟨[], true⟩,
          ⟨encodeLE 8 1, true⟩, ⟨[5], false⟩], false⟩], 1, 2⟩, 32) ∧
    32 = (4 + (([⟨[9, 8, 7]⟩, ⟨[]⟩, ⟨[5]⟩] : List Blob).map (fun b => 8 + b.size)).sum)
      % SIZE_MOD ∧
    32 = 4 + (([⟨[9, 8, 7]⟩, ⟨[]⟩, ⟨[5]⟩] : List Blob).map (fun b => 8 + b.size)).sum :=
  have h := ZMQNetWrapper.Send_returns_total 4 0 ⟨⟨[], false⟩, [some ⟨[], false⟩], 1, 2⟩
    ⟨⟨[], false⟩, [some ⟨[⟨[1, 2, 3, 4], true⟩,
          ⟨encodeLE 8 3, true⟩, ⟨[9, 8, 7], true⟩,
          ⟨encodeLE 8 0, true⟩, ⟨[], true⟩,
          ⟨encodeLE 8 1, true⟩, ⟨[5], false⟩], false⟩], 1, 2⟩
    ⟨[1, 2, 3, 4], [⟨[9, 8, 7]⟩, ⟨[]⟩, ⟨[5]⟩]⟩ 32 (by decide)
  ⟨by decide, h.1, h.2.1 (by decide)⟩

/-! ## The flags of the frames and the frame of a merge -/

/-- The frames of a non-empty list of Blobs: all but the last are marked "more",
the last is not. -/
theorem blobFrames_flags : ∀ blobs : List Blob, blobs ≠ [] →
    ∃ init last, blobFrames blobs = init ++ [last] ∧ last.more = false ∧
      ∀ f ∈ init, f.more = true
  | [], h => absurd rfl h
  | [b], _ => ⟨[⟨encodeLE 8 b.size, true⟩], ⟨b.bytes, false⟩, rfl, rfl, by simp⟩
  | b :: b' :: rest, _ => by
    obtain ⟨init, last, he, hl, hi⟩ := blobFrames_flags (b' :: rest) (List.cons_ne_nil _ _)
    refine ⟨⟨encodeLE 8 b.size, true⟩ :: ⟨b.bytes, true⟩ :: init, last, ?_, hl, ?_⟩
    · rw [blobFrames_cons_cons, he]
      rfl
    · intro f hf
      rcases List.mem_cons.1 hf with e | hf
      · rw [e]
      · rcases List.mem_cons.1 hf with e | hf
        · rw [e]
        · exact hi f hf

/-- The marks of the frames of a message with at least one Blob of at most
`INT_MAX` bytes each: every frame but the last is marked "more", the last is
not. -/
theorem ZMQNetWrapper.sendOn_flags (kHeaderSize : Nat) (msg : Message)
    (hk : kHeaderSize ≤ INT_MAX) (hh : msg.header.length = kHeaderSize)
    (hne : msg.data ≠ []) (hcount : msg.data.length < SIZE_MOD)
    (hb : ∀ b ∈ msg.data, b.size ≤ INT_MAX) :
    ∃ init last sz, ZMQNetWrapper.sendOn kHeaderSize (some ⟨[], false⟩) msg =
        .ok (some ⟨init ++ [last], false⟩, sz) ∧
      last.more = false ∧ ∀ f ∈ init, f.more = true := by
  obtain ⟨sz, hsend⟩ := ZMQNetWrapper.sendOn_eq kHeaderSize ⟨[], false⟩ msg hk hh hcount hb
  obtain ⟨init, last, he, hl, hi⟩ := blobFrames_flags msg.data hne
  refine ⟨⟨msg.header, true⟩ :: init, last, sz, ?_, hl, ?_⟩
  · rw [hsend, he]
    rfl
  · intro f hf
    rcases List.mem_cons.1 hf with e | hf
    · rw [e]
    · exact hi f hf

/-- C13 (defect of the code): for a message without Blobs `Send` succeeds and
writes one frame, the header, with `ZMQ_SNDMORE`: the very last frame of the
message carries the mark "more". -/
theorem ZMQNetWrapper.sendOn_no_blobs_last_marked :
    ZMQNetWrapper.sendOn 32 (some ⟨[], false⟩) ⟨List.replicate 32 7, []⟩ =
      .ok (some ⟨[⟨List.replicate 32 7, true⟩], false⟩, 32) ∧
    ([⟨List.replicate 32 7, true⟩] : List Frame).getLast?.map Frame.more = some true := by
  decide

/-- A reply of shard `id` with exactly the bytes of the segment: the segment
holds the bytes of the reply afterwards and every other byte of the caller
buffer is as before. -/
theorem ArrayWorker.WF.ProcessReplyGet_frame {sizeofT : Nat} {w : ArrayWorker}
    (hw : w.WF sizeofT) (hpos : 0 < sizeofT) {id : Nat} (hid : id < w.num_server_)
    (hmax : id ≤ INT_MAX) (v : Blob)
    (hv : v.size = (w.boundary (id + 1) - w.boundary id) * sizeofT)
    (data_ : List Byte) (hd : data_.length = w.size_ * sizeofT) :
    ∃ r, w.ProcessReplyGet sizeofT data_ [Blob.ofInt (id : Int), v] = .ok r ∧
      r.length = data_.length ∧
      byteRange r (w.boundary id * sizeofT) (w.boundary (id + 1) * sizeofT) = v.bytes ∧
      ∀ k, (k < w.boundary id * sizeofT ∨ w.boundary (id + 1) * sizeofT ≤ k) →
        r[k]? = data_[k]? := by
  have hhi := hw.mul_le (i := id + 1) (by omega)
  have hmm : w.boundary id * sizeofT ≤ w.boundary (id + 1) * sizeofT :=
    Nat.mul_le_mul_right _ (hw.mono id hid)
  have hlen : v.bytes.length = w.boundary (id + 1) * sizeofT - w.boundary id * sizeofT := by
    show v.size = _
    rw [hv, Nat.sub_mul]
  have hbound : w.boundary id * sizeofT + v.bytes.length ≤ data_.length := by omega
  refine ⟨_, hw.ProcessReplyGet_eq hpos hid hmax v hv data_ hd, memcpy_length hbound, ?_, ?_⟩
  · apply List.ext_getElem?
    intro k
    rw [byteRange_getElem?, memcpy_getElem? hbound]
    by_cases hk : k < w.boundary (id + 1) * sizeofT - w.boundary id * sizeofT
    · rw [if_pos hk, if_pos (by omega)]
      congr 1
      omega
    · rw [if_neg hk, List.getElem?_eq_none (by omega)]
  · intro k hk
    rw [memcpy_getElem? hbound, if_neg (by omega)]

/-- C19 (defect of the code): on the worker for `N = 10`, `S = 3` and elements
of 4 bytes, with a caller buffer of 40 zero bytes, the reply `[0, v]` with a
value Blob of 13 bytes is accepted and the byte at offset `12`, outside the
byte range `[0, 12)` of shard `0`, is overwritten; the reply `[2, v]` with a
value Blob of 17 bytes passes the `CHECK` and the copy leaves the buffer. -/
theorem ArrayWorker.ProcessReplyGet_writes_outside :
    ArrayWorker.new 3 10 = .ok ⟨10, 3, [0, 3, 6, 10]⟩ ∧
    ((⟨10, 3, [0, 3, 6, 10]⟩ : ArrayWorker).ProcessReplyGet 4 (List.replicate 40 0)
      [Blob.ofInt 0, ⟨List.replicate 13 1⟩]).map (fun r => r[12]?) = .ok (some 1) ∧
    (List.replicate 40 (0 : Byte))[12]? = some 0 ∧
    (⟨10, 3, [0, 3, 6, 10]⟩ : ArrayWorker).ProcessReplyGet 4 (List.replicate 40 0)
      [Blob.ofInt 2, ⟨List.replicate 17 1⟩] = .error .undefined := by
  decide

/-! ## Initialisation -/

/-- The loop of `Init` over peers that are not local: every peer gets a non-null
endpoint and `rank_` stays. -/
theorem ZMQNetWrapper.initLoop_remote (calls : ZmqCalls) (local_ip : List String) (port : Int) :
    ∀ (ips : List String) (req : List (Option Socket)) (rank : Int)
      (req' : List (Option Socket)) (rank' : Int),
      (∀ x ∈ ips, x ∉ local_ip) →
      ZMQNetWrapper.initLoop calls local_ip port ips req rank = .ok (req', rank') →
      rank' = rank ∧ ∃ socks : List Socket,
        socks.length = ips.length ∧ req' = req ++ socks.map some
  | [], req, rank, req', rank', _, h => by
    simp only [ZMQNetWrapper.initLoop, Except.ok.injEq, Prod.mk.injEq] at h
    exact ⟨h.2.symm, [], rfl, by simp [h.1]⟩
  | ip :: rest, req, rank, req', rank', hloc, h => by
    have hip : ip ∉ local_ip := hloc ip (List.mem_cons_self _ _)
    rw [ZMQNetWrapper.initLoop, if_neg hip] at h
    obtain ⟨_, hc, h⟩ := bind_eq_ok h
    have hrc := CHECK_eq_ok hc
    cases hs : calls.new_socket req.length with
    | none =>
      rw [hs] at hrc
      exact absurd hrc (by simp [zmq_connect])
    | some sock =>
      rw [hs] at h
      obtain ⟨hr, socks, hl, he⟩ := ZMQNetWrapper.initLoop_remote calls local_ip port rest
        (req ++ [some sock]) rank req' rank'
        (fun x hx => hloc x (List.mem_cons_of_mem _ hx)) h
      exact ⟨hr, sock :: socks, by simp [hl], by simp [he]⟩

/-- The loop of `Init` over a list in two parts. -/
theorem ZMQNetWrapper.initLoop_append (calls : ZmqCalls) (local_ip : List String) (port : Int) :
    ∀ (a b : List String) (req : List (Option Socket)) (rank : Int),
      ZMQNetWrapper.initLoop calls local_ip port (a ++ b) req rank =
        (ZMQNetWrapper.initLoop calls local_ip port a req rank).bind
          (fun p => ZMQNetWrapper.initLoop calls local_ip port b p.1 p.2)
  | [], b, req, rank => rfl
  | ip :: a, b, req, rank => by
    rw [List.cons_append, ZMQNetWrapper.initLoop, ZMQNetWrapper.initLoop]
    by_cases hip : ip ∈ local_ip
    · rw [if_pos hip, if_pos hip]
      exact ZMQNetWrapper.initLoop_append calls local_ip port a b _ _
    · rw [if_neg hip, if_neg hip]
      simp only [bind, Except.bind]
      cases CHECK (zmq_connect calls (calls.new_socket req.length)
          ("tcp://" ++ ip ++ ":" ++ toString port) = 0) with
      | error e => rfl
      | ok u => exact ZMQNetWrapper.initLoop_append calls local_ip port a b _ _

/-- C15: for a peer list in which exactly one entry (the one after `pre`) is a
local address, and which is short enough for `size()`, an `int`, to hold its
length: after `Init` has succeeded on a fresh wrapper, `size()` is the length
of the list, `requester_` has that many entries, `rank()` is the index of the
local entry, the slot at `rank()` is null and every other slot holds a
non-null endpoint. -/
theorem ZMQNetWrapper.Init_spec (calls : ZmqCalls) (local_ip : List String) (argc port : Int)
    (net net' : ZMQNetWrapper) (pre post : List String) (ip : String)
    (hfresh : net.requester_ = []) (hlen : (pre ++ ip :: post).length ≤ INT_MAX)
    (hip : ip ∈ local_ip) (hpre : ∀ x ∈ pre, x ∉ local_ip) (hpost : ∀ x ∈ post, x ∉ local_ip)
    (h : ZMQNetWrapper.Init calls local_ip argc (pre ++ ip :: post) port net = .ok net') :
    (pre ++ ip :: post).get? pre.length = some ip ∧
    net'.size = ((pre ++ ip :: post).length : Int) ∧
    net'.requester_.length = (pre ++ ip :: post).length ∧
    net'.rank = (pre.length : Int) ∧
    net'.requester_.get? pre.length = some none ∧
    ∀ j, j < (pre ++ ip :: post).length → j ≠ pre.length →
      ∃ sock, net'.requester_.get? j = some (some sock) := by
  have hpl : pre.length ≤ INT_MAX := by
    rw [List.length_append] at hlen
    omega
  unfold ZMQNetWrapper.Init at h
  obtain ⟨_, -, h⟩ := bind_eq_ok h
  obtain ⟨_, -, h⟩ := bind_eq_ok h
  obtain ⟨⟨req, rank⟩, hloop, h⟩ := bind_eq_ok h
  rw [ZMQNetWrapper.initLoop_append, hfresh] at hloop
  obtain ⟨⟨req1, rank1⟩, h1, hloop⟩ := bind_eq_ok hloop
  obtain ⟨-, socks1, hl1, he1⟩ := ZMQNetWrapper.initLoop_remote calls local_ip port pre []
    net.rank_ req1 rank1 hpre h1
  simp only [ZMQNetWrapper.initLoop, if_pos hip] at hloop
  obtain ⟨hr, socks2, hl2, he2⟩ := ZMQNetWrapper.initLoop_remote calls local_ip port post
    (req1 ++ [none]) (castInt req1.length) req rank hpost hloop
  have hreq1 : req1.length = pre.length := by simp [he1, hl1]
  have hreq : req = socks1.map some ++ none :: socks2.map some := by
    rw [he2, he1]
    simp
  simp only [pure, Except.pure, Except.ok.injEq] at h
  subst h
  simp only [ZMQNetWrapper.size, ZMQNetWrapper.rank]
  have hm1 : (socks1.map some).length = pre.length := by simp [hl1]
  refine ⟨?_, castInt_of_le hlen, ?_, ?_, ?_, ?_⟩
  · rw [List.get?_eq_getElem?, List.getElem?_append_right (Nat.le_refl _), Nat.sub_self,
      List.getElem?_cons_zero]
  · rw [hreq]
    simp [hl1, hl2]
  · rw [hr, hreq1, castInt_of_le hpl]
  · rw [hreq, List.get?_eq_getElem?, List.getElem?_append_right (Nat.le_of_eq hm1), hm1,
      Nat.sub_self, List.getElem?_cons_zero]
  · intro j hj hne
    rw [hreq, List.get?_eq_getElem?]
    rw [List.length_append, List.length_cons] at hj
    rcases Nat.lt_or_gt_of_ne hne with hlt | hgt
    · rw [List.getElem?_append_left (by omega), List.getElem?_map]
      have : j < socks1.length := by omega
      rw [List.getElem?_eq_getElem this]
      exact ⟨_, rfl⟩
    · rw [List.getElem?_append_right (by omega), hm1]
      obtain ⟨k, hk⟩ : ∃ k, j - pre.length = k + 1 := ⟨j - pre.length - 1, by omega⟩
      rw [hk, List.getElem?_cons_succ, List.getElem?_map]
      have : k < socks2.length := by omega
      rw [List.getElem?_eq_getElem this]
      exact ⟨_, rfl⟩

/-- Three peers, the second of which is this machine: `Init` leaves three
slots, rank 1, a null slot 1 and endpoints in the slots 0 and 2. -/
theorem ZMQNetWrapper.Init_spec_witness :
    ZMQNetWrapper.Init ⟨0, fun _ => some ⟨[], false⟩, fun _ => 0⟩ ["10.0.0.2", "127.0.0.1"] 3
        (["10.0.0.1"] ++ "10.0.0.2" :: ["10.0.0.3"]) 5555 ⟨⟨[], false⟩, [], 77, 0⟩ =
      .ok ⟨⟨[], false⟩, [some ⟨[], false⟩, none, some ⟨[], false⟩], 1, 3⟩ ∧
    (["10.0.0.1"] ++ "10.0.0.2" :: ["10.0.0.3"]).get? 1 = some "10.0.0.2" ∧
    (⟨⟨[], false⟩, [some ⟨[], false⟩, none, some ⟨[], false⟩], 1, 3⟩ : ZMQNetWrapper).size = 3 ∧
    (⟨⟨[], false⟩, [some ⟨[], false⟩, none, some ⟨[], false⟩], 1, 3⟩ :
      ZMQNetWrapper).requester_.length = 3 ∧
    (⟨⟨[], false⟩, [some ⟨[], false⟩, none, some ⟨[], false⟩], 1, 3⟩ : ZMQNetWrapper).rank = 1 ∧
    (⟨⟨[], false⟩, [some ⟨[], false⟩, none, some ⟨[], false⟩], 1, 3⟩ :
      ZMQNetWrapper).requester_.get? 1 = some none ∧
    ∀ j, j < 3 → j ≠ 1 → ∃ sock,
      (⟨⟨[], false⟩, [some ⟨[], false⟩, none, some ⟨[], false⟩], 1, 3⟩ :
        ZMQNetWrapper).requester_.get? j = some (some sock) :=
  ⟨by decide,
    ZMQNetWrapper.Init_spec ⟨0, fun _ => some ⟨[], false⟩, fun _ => 0⟩ ["10.0.0.2", "127.0.0.1"]
      3 5555 ⟨⟨[], false⟩, [], 77, 0⟩
      ⟨⟨[], false⟩, [some ⟨[], false⟩, none, some ⟨[], false⟩], 1, 3⟩
      ["10.0.0.1"] ["10.0.0.3"] "10.0.0.2" rfl (by decide) (by decide) (by decide) (by decide)
      (by decide)⟩

end Multiverso
